import Mathlib

/-!
Verification of the interval-analysis engine of
`hta/analyzers/breakdown_analysis.py` (class `BreakdownAnalysis`).

The Python dataframe pipelines are embedded shallowly as list programs:

* a dataframe of `[start, end)` spans is a `List Iv`;
* `pandas.sort_values` is rendered as an insertion sort on the relevant key
  (the source's quicksort is unstable, so any order among equal keys is a
  valid linearization; no theorem below depends on tie order);
* `melt`/`shift`/`cumsum`/`groupby().agg` become explicit list traversals;
* a float `NaN` entering a column is an `Option` `none`; the IEEE results of
  dividing by zero are the values of the small inductive type `PdVal`;
* timestamps are integers, so the measure of a union of `[start, end)` spans
  is the cardinality of a `Finset ℤ` of covered points.
-/

/-- A half-open interval `[ts, en)`; the columns `ts` and `end` of a merged
kernel dataframe (`end` is a Lean keyword, so the field is `en`). -/
structure Iv where
  ts : Int
  en : Int
deriving DecidableEq, Repr

/-- The set of integer points covered by `[ts, en)`. -/
def Iv.pts (i : Iv) : Finset Int := Finset.Ico i.ts i.en

/-- One labeled category of `_get_gpu_kernel_type_time`: the kernel-type name
together with the merged intervals of that kernel type (the output of
`merge_kernel_intervals` on the kernels of that type). -/
abbrev Cat := String × List Iv

/-- Points covered by a category's merged intervals. -/
def catPts (ivs : List Iv) : Finset Int := ivs.foldr (fun i s => i.pts ∪ s) ∅

/-- Points covered by the union of all categories. -/
def allPts (cats : List Cat) : Finset Int := cats.foldr (fun c s => catPts c.2 ∪ s) ∅

/-- A pre-merged per-category interval set: intervals are well formed and
pairwise non-overlapping (`merge_kernel_intervals` guarantees this). -/
def MergedSet (ivs : List Iv) : Prop :=
  (∀ i ∈ ivs, i.ts ≤ i.en) ∧ List.Pairwise (fun a b => a.en ≤ b.ts ∨ b.en ≤ a.ts) ivs

/-- Ordering of sweep events by the `time` column, as in
`sort_values(by="time")`. -/
def timeLe (a b : Int × Int) : Prop := a.1 ≤ b.1

instance : DecidableRel timeLe := fun a b => inferInstanceAs (Decidable (a.1 ≤ b.1))

instance : IsTotal (Int × Int) timeLe := ⟨fun a b => le_total a.1 b.1⟩

instance : IsTrans (Int × Int) timeLe := ⟨fun _ _ _ h1 h2 => le_trans h1 h2⟩

/-- Embeds `kernel_t_df.melt(var_name="status", value_name="time").replace({"ts": value, "end": -value})`:
a `(+flag)` event at each interval start, a `(-flag)` event at each end
(melt stacks the `ts` column first, then the `end` column).
Events are `(time, status)` pairs. -/
def meltIv (flag : Int) (ivs : List Iv) : List (Int × Int) :=
  ivs.map (fun i => (i.ts, flag)) ++ ivs.map (fun i => (i.en, -flag))

/-- Embeds `sort_values(by="time")` on the event frame. -/
def sortEvents (es : List (Int × Int)) : List (Int × Int) :=
  List.insertionSort timeLe es

/-- The event-accumulation loop of `_get_gpu_kernel_type_time`
(`for idx, kernel_type in enumerate(kernel_type_to_analysis)`): each category
contributes its melted events with flag `1 << idx`, and the accumulated frame
is re-sorted by time on every iteration, exactly as in the source. -/
def sweepEventsAux : Nat → List (Int × Int) → List Cat → List (Int × Int)
  | _, acc, [] => acc
  | idx, acc, c :: rest =>
      sweepEventsAux (idx + 1) (sortEvents (acc ++ meltIv ((2 : Int) ^ idx) c.2)) rest

/-- All sweep events of the kernel-type categories, sorted by time. -/
def sweepEvents (cats : List Cat) : List (Int × Int) := sweepEventsAux 0 [] cats

/-- Embeds `running = status.cumsum()` and `next_time = time.shift(-1)`:
each event row becomes `(time, running, next_time)`, where the last row's
`next_time` is `none` (pandas `NaN`). -/
def toRows : Int → List (Int × Int) → List (Int × Int × Option Int)
  | _, [] => []
  | run, (t, d) :: rest => (t, run + d, rest.head?.map Prod.fst) :: toRows (run + d) rest

/-- Embeds the `running_mapping` label construction: OR in each category name
whose flag bit is set in the running value, joined by `" overlapping "`, in
category order. The running value is only queried when positive, so the
bit test is taken on `Int.toNat`. -/
def runningLabelAux : Nat → Int → String → List Cat → String
  | _, _, s, [] => s
  | idx, run, s, c :: rest =>
      runningLabelAux (idx + 1) run
        (if run.toNat &&& 2 ^ idx ≠ 0 then
          (if s = "" then c.1 else s ++ " overlapping " ++ c.1)
        else s) rest

/-- Label of a positive running value. -/
def runningLabel (cats : List Cat) (run : Int) : String := runningLabelAux 0 run "" cats

/-- Embeds the filter `overlap_kernel_type_df[overlap_kernel_type_df["running"] > 0]`. -/
def keptRows (es : List (Int × Int)) : List (Int × Int × Option Int) :=
  (toRows 0 es).filter (fun r => decide (0 < r.2.1))

/-- Embeds `dur = (next_time - time).astype(int)` on one kept row together
with the `kernel_type` label assignment; `astype(int)` on a `NaN`
(`next_time` of the final row) raises, hence `none`. -/
def rowDur (cats : List Cat) (r : Int × Int × Option Int) : Option (String × Int) :=
  r.2.2.map (fun nt => (runningLabel cats r.2.1, nt - r.1))

/-- Option-valued traversal (`List.mapM` for `Option`, written out so that it
unfolds by kernel reduction). -/
def optionMapAll {α β : Type} (f : α → Option β) : List α → Option (List β)
  | [] => some []
  | a :: l =>
      match f a, optionMapAll f l with
      | some b, some bs => some (b :: bs)
      | _, _ => none

/-- Embeds `groupby(by=["kernel_type"])["dur"].agg(["sum"])`: one `(label, total)`
row per distinct label. -/
def groupSums (rows : List (String × Int)) : List (String × Int) :=
  ((rows.map Prod.fst).dedup).map
    (fun k => (k, ((rows.filter (fun r => decide (r.1 = k))).map Prod.snd).sum))

/-- Embeds `_get_gpu_kernel_type_time` (breakdown_analysis.py lines 494-561),
taking each category's already-merged intervals as input: melt every category
into signed flag events, sort by time, take the running cumulative sum, keep
rows with positive running value, compute each kept row's duration to the next
event, and total the durations per combination label. `none` models the
pipeline raising (a kept row with no next time). -/
def getGpuKernelTypeTime (cats : List Cat) : Option (List (String × Int)) :=
  (optionMapAll (rowDur cats) (keptRows (sweepEvents cats))).map groupSums

/-- Total signed flag weight of the events with time at most `t`; invariant
under reordering of the event list. -/
def countLE (es : List (Int × Int)) (t : Int) : Int :=
  ((es.filter (fun e => decide (e.1 ≤ t))).map Prod.snd).sum

/-- The events of all categories in source order (specification-side view of
the accumulation loop; `sweepEvents` is a permutation of this list). -/
def allEventsAux : Nat → List Cat → List (Int × Int)
  | _, [] => []
  | idx, c :: rest => meltIv ((2 : Int) ^ idx) c.2 ++ allEventsAux (idx + 1) rest

/-- Sum of the `status` column. -/
def totalD (es : List (Int × Int)) : Int := (es.map Prod.snd).sum

/-- The set of points lying in some segment between consecutive event times
whose running value is positive (specification-side view of the kept rows). -/
def sweepSegs : Int → List (Int × Int) → Finset Int
  | _, [] => ∅
  | _, [_] => ∅
  | run, (t, d) :: (t2, d2) :: rest =>
      (if 0 < run + d then Finset.Ico t t2 else ∅) ∪ sweepSegs (run + d) ((t2, d2) :: rest)

/-- Total length of the kept segments (specification-side view of the summed
durations). -/
def keptLen : Int → List (Int × Int) → Int
  | _, [] => 0
  | _, [_] => 0
  | run, (t, d) :: (t2, d2) :: rest =>
      (if 0 < run + d then t2 - t else 0) + keptLen (run + d) ((t2, d2) :: rest)

theorem mem_catPts {ivs : List Iv} {t : Int} :
    t ∈ catPts ivs ↔ ∃ i ∈ ivs, i.ts ≤ t ∧ t < i.en := by
  induction ivs with
  | nil => simp [catPts]
  | cons i rest ih =>
      simp [catPts, Iv.pts, Finset.mem_union, Finset.mem_Ico] at *
      rw [ih]

theorem mem_allPts {cats : List Cat} {t : Int} :
    t ∈ allPts cats ↔ ∃ c ∈ cats, t ∈ catPts c.2 := by
  induction cats with
  | nil => simp [allPts]
  | cons c rest ih =>
      simp [allPts, Finset.mem_union] at *
      rw [ih]

theorem countLE_append (es1 es2 : List (Int × Int)) (t : Int) :
    countLE (es1 ++ es2) t = countLE es1 t + countLE es2 t := by
  simp [countLE, List.filter_append]

theorem countLE_perm {es1 es2 : List (Int × Int)} (h : es1.Perm es2) (t : Int) :
    countLE es1 t = countLE es2 t :=
  ((h.filter _).map _).sum_eq

theorem totalD_append (es1 es2 : List (Int × Int)) :
    totalD (es1 ++ es2) = totalD es1 + totalD es2 := by
  simp [totalD]

theorem totalD_perm {es1 es2 : List (Int × Int)} (h : es1.Perm es2) :
    totalD es1 = totalD es2 :=
  (h.map _).sum_eq

theorem totalD_meltIv (flag : Int) (ivs : List Iv) : totalD (meltIv flag ivs) = 0 := by
  induction ivs with
  | nil => simp [totalD, meltIv]
  | cons i rest ih =>
      simp [totalD, meltIv] at *
      omega

theorem totalD_allEventsAux (idx : Nat) (cats : List Cat) :
    totalD (allEventsAux idx cats) = 0 := by
  induction cats generalizing idx with
  | nil => simp [totalD, allEventsAux]
  | cons c rest ih =>
      rw [allEventsAux, totalD_append, totalD_meltIv, ih]
      simp

theorem countLE_starts (flag t : Int) (ivs : List Iv) :
    countLE (ivs.map (fun i => (i.ts, flag))) t
      = flag * ((ivs.filter (fun i => decide (i.ts ≤ t))).length : Int) := by
  induction ivs with
  | nil => simp [countLE]
  | cons i rest ih =>
      by_cases h : i.ts ≤ t
      · simp [countLE, List.filter_cons, h] at *
        rw [ih]; ring
      · simp [countLE, List.filter_cons, h] at *
        exact ih

theorem countLE_ends (flag t : Int) (ivs : List Iv) :
    countLE (ivs.map (fun i => (i.en, -flag))) t
      = -(flag * ((ivs.filter (fun i => decide (i.en ≤ t))).length : Int)) := by
  induction ivs with
  | nil => simp [countLE]
  | cons i rest ih =>
      by_cases h : i.en ≤ t
      · simp [countLE, List.filter_cons, h] at *
        rw [ih]; ring
      · simp [countLE, List.filter_cons, h] at *
        exact ih

theorem merged_count_diff {ivs : List Iv} (hm : MergedSet ivs) (t : Int) :
    ((ivs.filter (fun i => decide (i.ts ≤ t))).length : Int)
      - ((ivs.filter (fun i => decide (i.en ≤ t))).length : Int)
      = if t ∈ catPts ivs then 1 else 0 := by
  obtain ⟨hwf, hdisj⟩ := hm
  induction ivs with
  | nil => simp [catPts]
  | cons i rest ih =>
      have hiwf : i.ts ≤ i.en := hwf i (by simp)
      have hrwf : ∀ j ∈ rest, j.ts ≤ j.en := fun j hj => hwf j (by simp [hj])
      have hrdisj := (List.pairwise_cons.mp hdisj).2
      have hidisj := (List.pairwise_cons.mp hdisj).1
      have ihr := ih hrwf hrdisj
      by_cases hmem : i.ts ≤ t ∧ t < i.en
      · -- t lies in the head interval; it cannot lie in any interval of rest
        have hnotrest : t ∉ catPts rest := by
          intro hc
          obtain ⟨j, hj, hjts, hjlt⟩ := mem_catPts.mp hc
          rcases hidisj j hj with h | h <;> omega
        have h1 : (i.ts ≤ t) := hmem.1
        have h2 : ¬ (i.en ≤ t) := by omega
        have e1 : List.filter (fun j => decide (j.ts ≤ t)) (i :: rest)
            = i :: List.filter (fun j => decide (j.ts ≤ t)) rest := by
          simp [List.filter_cons, h1]
        have e2 : List.filter (fun j => decide (j.en ≤ t)) (i :: rest)
            = List.filter (fun j => decide (j.en ≤ t)) rest := by
          simp [List.filter_cons, h2]
        have hhead : t ∈ catPts (i :: rest) := by
          rw [mem_catPts]; exact ⟨i, by simp, hmem⟩
        rw [e1, e2, if_pos hhead]
        rw [if_neg hnotrest] at ihr
        simp only [List.length_cons]
        push_cast
        omega
      · -- t is outside the head interval
        have hsame : (t ∈ catPts (i :: rest)) ↔ (t ∈ catPts rest) := by
          rw [mem_catPts, mem_catPts]
          constructor
          · rintro ⟨j, hj, hjp⟩
            rcases List.mem_cons.mp hj with rfl | hj2
            · exact absurd hjp hmem
            · exact ⟨j, hj2, hjp⟩
          · rintro ⟨j, hj, hjp⟩
            exact ⟨j, by simp [hj], hjp⟩
        by_cases h1 : i.ts ≤ t
        · have h2 : i.en ≤ t := by
            by_contra h3
            exact hmem ⟨h1, by omega⟩
          have e1 : List.filter (fun j => decide (j.ts ≤ t)) (i :: rest)
              = i :: List.filter (fun j => decide (j.ts ≤ t)) rest := by
            simp [List.filter_cons, h1]
          have e2 : List.filter (fun j => decide (j.en ≤ t)) (i :: rest)
              = i :: List.filter (fun j => decide (j.en ≤ t)) rest := by
            simp [List.filter_cons, h2]
          rw [e1, e2]
          simp only [List.length_cons, hsame]
          push_cast
          omega
        · have h2 : ¬ (i.en ≤ t) := by omega
          have e1 : List.filter (fun j => decide (j.ts ≤ t)) (i :: rest)
              = List.filter (fun j => decide (j.ts ≤ t)) rest := by
            simp [List.filter_cons, h1]
          have e2 : List.filter (fun j => decide (j.en ≤ t)) (i :: rest)
              = List.filter (fun j => decide (j.en ≤ t)) rest := by
            simp [List.filter_cons, h2]
          rw [e1, e2]
          simp only [hsame]
          exact ihr

theorem countLE_meltIv {ivs : List Iv} (hm : MergedSet ivs) (flag t : Int) :
    countLE (meltIv flag ivs) t = if t ∈ catPts ivs then flag else 0 := by
  rw [meltIv, countLE_append, countLE_starts, countLE_ends]
  have hd := merged_count_diff hm t
  by_cases hmem : t ∈ catPts ivs
  · rw [if_pos hmem] at *
    linear_combination flag * hd
  · rw [if_neg hmem] at *
    linear_combination flag * hd

theorem countLE_allEventsAux (t : Int) (cats : List Cat)
    (hm : ∀ c ∈ cats, MergedSet c.2) (idx : Nat) :
    0 ≤ countLE (allEventsAux idx cats) t
      ∧ (0 < countLE (allEventsAux idx cats) t ↔ t ∈ allPts cats) := by
  induction cats generalizing idx with
  | nil => simp [allEventsAux, countLE, allPts]
  | cons c rest ih =>
      have hmc : MergedSet c.2 := hm c (by simp)
      have hmr : ∀ d ∈ rest, MergedSet d.2 := fun d hd => hm d (by simp [hd])
      obtain ⟨ihnn, ihpos⟩ := ih hmr (idx + 1)
      rw [allEventsAux, countLE_append, countLE_meltIv hmc]
      have hflag : (0 : Int) < 2 ^ idx := by positivity
      have hmem : t ∈ allPts (c :: rest) ↔ (t ∈ catPts c.2 ∨ t ∈ allPts rest) := by
        rw [mem_allPts]
        constructor
        · rintro ⟨d, hd, hdp⟩
          rcases List.mem_cons.mp hd with rfl | hd2
          · exact Or.inl hdp
          · exact Or.inr (mem_allPts.mpr ⟨d, hd2, hdp⟩)
        · rintro (h | h)
          · exact ⟨c, by simp, h⟩
          · obtain ⟨d, hd, hdp⟩ := mem_allPts.mp h
            exact ⟨d, by simp [hd], hdp⟩
      rw [hmem]
      by_cases hc : t ∈ catPts c.2
      · rw [if_pos hc]
        constructor
        · omega
        · constructor
          · intro _; exact Or.inl hc
          · intro _; omega
      · rw [if_neg hc]
        simp only [zero_add]
        constructor
        · omega
        · rw [ihpos]
          constructor
          · intro h; exact Or.inr h
          · rintro (h | h)
            · exact absurd h hc
            · exact h

theorem sortEvents_perm (es : List (Int × Int)) : (sortEvents es).Perm es :=
  List.perm_insertionSort timeLe es

theorem sortEvents_sorted (es : List (Int × Int)) : List.Sorted timeLe (sortEvents es) :=
  List.sorted_insertionSort timeLe es

theorem sweepEventsAux_perm (cats : List Cat) :
    ∀ (idx : Nat) (acc : List (Int × Int)),
      (sweepEventsAux idx acc cats).Perm (acc ++ allEventsAux idx cats) := by
  induction cats with
  | nil => intro idx acc; simp [sweepEventsAux, allEventsAux]
  | cons c rest ih =>
      intro idx acc
      rw [sweepEventsAux, allEventsAux]
      refine (ih (idx + 1) _).trans ?_
      have h1 : (sortEvents (acc ++ meltIv ((2 : Int) ^ idx) c.2)).Perm
          (acc ++ meltIv ((2 : Int) ^ idx) c.2) := sortEvents_perm _
      calc (sortEvents (acc ++ meltIv ((2 : Int) ^ idx) c.2) ++ allEventsAux (idx + 1) rest).Perm
            ((acc ++ meltIv ((2 : Int) ^ idx) c.2) ++ allEventsAux (idx + 1) rest) :=
              h1.append_right _
        _ = acc ++ (meltIv ((2 : Int) ^ idx) c.2 ++ allEventsAux (idx + 1) rest) := by
              rw [List.append_assoc]

theorem sweepEventsAux_sorted (cats : List Cat) :
    ∀ (idx : Nat) (acc : List (Int × Int)),
      List.Sorted timeLe acc → List.Sorted timeLe (sweepEventsAux idx acc cats) := by
  induction cats with
  | nil => intro idx acc h; exact h
  | cons c rest ih =>
      intro idx acc _
      exact ih (idx + 1) _ (sortEvents_sorted _)

theorem sweepEvents_perm (cats : List Cat) :
    (sweepEvents cats).Perm (allEventsAux 0 cats) := by
  have := sweepEventsAux_perm cats 0 []
  simpa [sweepEvents] using this

theorem sweepEvents_sorted (cats : List Cat) : List.Sorted timeLe (sweepEvents cats) :=
  sweepEventsAux_sorted cats 0 [] (by simp)

theorem countLE_eq_zero_of_lt {es : List (Int × Int)} {x : Int}
    (h : ∀ e ∈ es, x < e.1) : countLE es x = 0 := by
  have : es.filter (fun e => decide (e.1 ≤ x)) = [] := by
    rw [List.filter_eq_nil_iff]
    intro e he
    simp only [decide_eq_true_eq]
    exact fun hc => absurd (h e he) (by omega)
  rw [countLE, this]
  simp

theorem mem_sweepSegs {es : List (Int × Int)} (hs : List.Sorted timeLe es) :
    ∀ (run x : Int),
      x ∈ sweepSegs run es ↔
        0 < run + countLE es x ∧ (∃ e ∈ es, e.1 ≤ x) ∧ (∃ e ∈ es, x < e.1) := by
  induction es with
  | nil => intro run x; simp [sweepSegs, countLE]
  | cons e rest ih =>
      intro run x
      obtain ⟨t, d⟩ := e
      match rest, hs with
      | [], _ =>
          simp only [sweepSegs]
          constructor
          · intro h; exact absurd h (by simp)
          · rintro ⟨_, ⟨e1, he1, hle⟩, ⟨e2, he2, hlt⟩⟩
            simp only [List.mem_singleton] at he1 he2
            subst he1; subst he2
            omega
      | (t2, d2) :: rest2, hs =>
          have hhead : ∀ b ∈ (t2, d2) :: rest2, timeLe (t, d) b :=
            (List.sorted_cons.mp hs).1
          have hrest : List.Sorted timeLe ((t2, d2) :: rest2) :=
            (List.sorted_cons.mp hs).2
          have ht12 : t ≤ t2 := hhead (t2, d2) (by simp)
          have htail_ge : ∀ e ∈ (t2, d2) :: rest2, t2 ≤ e.1 := by
            intro e he
            rcases List.mem_cons.mp he with rfl | he2
            · exact le_refl _
            · exact (List.sorted_cons.mp hrest).1 e he2
          rw [sweepSegs]
          by_cases hx1 : x < t
          · -- left of every event
            have hnotseg : x ∉ sweepSegs (run + d) ((t2, d2) :: rest2) := by
              intro hc
              obtain ⟨_, ⟨e1, he1, hle⟩, _⟩ := (ih hrest (run + d) x).mp hc
              have := htail_ge e1 he1
              omega
            constructor
            · intro hc
              rcases Finset.mem_union.mp hc with hl | hr
              · by_cases hrun : 0 < run + d
                · rw [if_pos hrun] at hl
                  have := (Finset.mem_Ico.mp hl).1
                  omega
                · rw [if_neg hrun] at hl
                  exact absurd hl (by simp)
              · exact absurd hr hnotseg
            · rintro ⟨_, ⟨e1, he1, hle⟩, _⟩
              rcases List.mem_cons.mp he1 with rfl | he2
              · simp at hle; omega
              · have := htail_ge e1 he2
                omega
          · by_cases hx2 : x < t2
            · -- inside the head segment [t, t2)
              have hcount : countLE ((t, d) :: (t2, d2) :: rest2) x = d := by
                have htailz : countLE ((t2, d2) :: rest2) x = 0 :=
                  countLE_eq_zero_of_lt (fun e he => lt_of_lt_of_le hx2 (htail_ge e he))
                have : countLE ((t, d) :: (t2, d2) :: rest2) x
                    = d + countLE ((t2, d2) :: rest2) x := by
                  simp [countLE, List.filter_cons, show t ≤ x by omega]
                omega
              have hnotseg : x ∉ sweepSegs (run + d) ((t2, d2) :: rest2) := by
                intro hc
                obtain ⟨_, ⟨e1, he1, hle⟩, _⟩ := (ih hrest (run + d) x).mp hc
                have := htail_ge e1 he1
                omega
              rw [hcount]
              constructor
              · intro hc
                rcases Finset.mem_union.mp hc with hl | hr
                · by_cases hrun : 0 < run + d
                  · refine ⟨by omega, ⟨(t, d), by simp, by simp; omega⟩,
                      ⟨(t2, d2), by simp, by simp; omega⟩⟩
                  · rw [if_neg hrun] at hl
                    exact absurd hl (by simp)
                · exact absurd hr hnotseg
              · rintro ⟨hpos, _, _⟩
                apply Finset.mem_union_left
                rw [if_pos (by omega)]
                rw [Finset.mem_Ico]
                omega
            · -- at or right of t2: delegate to the tail
              have hcount : countLE ((t, d) :: (t2, d2) :: rest2) x
                  = d + countLE ((t2, d2) :: rest2) x := by
                simp [countLE, List.filter_cons, show t ≤ x by omega]
              have hheadno : x ∉ (if 0 < run + d then Finset.Ico t t2 else ∅) := by
                by_cases hrun : 0 < run + d
                · rw [if_pos hrun, Finset.mem_Ico]
                  omega
                · rw [if_neg hrun]
                  simp
              rw [Finset.mem_union]
              rw [ih hrest (run + d) x]
              constructor
              · rintro (hl | ⟨hpos, ⟨e1, he1, hle⟩, ⟨e2, he2, hlt⟩⟩)
                · exact absurd hl hheadno
                · exact ⟨by omega, ⟨e1, by simp [he1], hle⟩, ⟨e2, by simp [he2], hlt⟩⟩
              · rintro ⟨hpos, ⟨e1, he1, hle⟩, ⟨e2, he2, hlt⟩⟩
                right
                refine ⟨by omega, ⟨(t2, d2), by simp, by simp; omega⟩, ?_⟩
                rcases List.mem_cons.mp he2 with rfl | he2r
                · simp at hlt
                  omega
                · exact ⟨e2, he2r, hlt⟩

theorem card_sweepSegs {es : List (Int × Int)} (hs : List.Sorted timeLe es) :
    ∀ run : Int, ((sweepSegs run es).card : Int) = keptLen run es := by
  induction es with
  | nil => intro run; simp [sweepSegs, keptLen]
  | cons e rest ih =>
      intro run
      obtain ⟨t, d⟩ := e
      match rest, hs with
      | [], _ => simp [sweepSegs, keptLen]
      | (t2, d2) :: rest2, hs =>
          have hhead : ∀ b ∈ (t2, d2) :: rest2, timeLe (t, d) b :=
            (List.sorted_cons.mp hs).1
          have hrest : List.Sorted timeLe ((t2, d2) :: rest2) :=
            (List.sorted_cons.mp hs).2
          have ht12 : t ≤ t2 := hhead (t2, d2) (by simp)
          have htail_ge : ∀ e ∈ (t2, d2) :: rest2, t2 ≤ e.1 := by
            intro e he
            rcases List.mem_cons.mp he with rfl | he2
            · exact le_refl _
            · exact (List.sorted_cons.mp hrest).1 e he2
          have hdisj : Disjoint (if 0 < run + d then Finset.Ico t t2 else ∅)
              (sweepSegs (run + d) ((t2, d2) :: rest2)) := by
            rw [Finset.disjoint_left]
            intro x hx hx2
            obtain ⟨_, ⟨e1, he1, hle⟩, _⟩ := (mem_sweepSegs hrest (run + d) x).mp hx2
            have ht2x : t2 ≤ x := le_trans (htail_ge e1 he1) hle
            by_cases hrun : 0 < run + d
            · rw [if_pos hrun, Finset.mem_Ico] at hx
              omega
            · rw [if_neg hrun] at hx
              exact absurd hx (by simp)
          rw [sweepSegs, keptLen, Finset.card_union_of_disjoint hdisj]
          push_cast
          rw [ih hrest (run + d)]
          by_cases hrun : 0 < run + d
          · rw [if_pos hrun, if_pos hrun, Int.card_Ico, Int.toNat_of_nonneg (by omega)]
          · rw [if_neg hrun, if_neg hrun]
            simp

theorem toRows_none_running :
    ∀ (es : List (Int × Int)) (run : Int) (r : Int × Int × Option Int),
      r ∈ toRows run es → r.2.2 = none → r.2.1 = run + totalD es := by
  intro es
  induction es with
  | nil => intro run r hr; simp [toRows] at hr
  | cons e rest ih =>
      intro run r hr hn
      obtain ⟨t, d⟩ := e
      rw [toRows] at hr
      rcases List.mem_cons.mp hr with rfl | hr2
      · simp only at hn
        match rest, hn with
        | [], _ => simp [totalD]
      · have := ih (run + d) r hr2 hn
        rw [this, totalD, totalD]
        simp
        ring

theorem pipeline_sum (cats : List Cat) :
    ∀ (es : List (Int × Int)) (run : Int), List.Sorted timeLe es →
      run + totalD es ≤ 0 →
      ∃ out, optionMapAll (rowDur cats) ((toRows run es).filter (fun r => decide (0 < r.2.1)))
          = some out
        ∧ (out.map Prod.snd).sum = keptLen run es := by
  intro es
  induction es with
  | nil => intro run _ _; exact ⟨[], by simp [toRows, optionMapAll], by simp [keptLen]⟩
  | cons e rest ih =>
      intro run hs htot
      obtain ⟨t, d⟩ := e
      match rest with
      | [] =>
          have hd : d ≤ -run := by
            simp [totalD] at htot
            omega
          have : ¬ (0 < run + d) := by omega
          refine ⟨[], ?_, by simp [keptLen]⟩
          simp [toRows, List.filter_cons, this, optionMapAll]
      | (t2, d2) :: rest2 =>
          have hrest : List.Sorted timeLe ((t2, d2) :: rest2) :=
            (List.sorted_cons.mp hs).2
          have htot2 : (run + d) + totalD ((t2, d2) :: rest2) ≤ 0 := by
            rw [totalD] at htot ⊢
            simp at htot ⊢
            omega
          obtain ⟨out2, hout2, hsum2⟩ := ih (run + d) hrest htot2
          by_cases hrun : 0 < run + d
          · refine ⟨(runningLabel cats (run + d), t2 - t) :: out2, ?_, ?_⟩
            · rw [toRows, List.filter_cons]
              simp only [hrun, decide_eq_true_eq, if_true]
              rw [optionMapAll]
              rw [hout2]
              rfl
            · rw [keptLen, if_pos hrun]
              simp [hsum2]
          · refine ⟨out2, ?_, ?_⟩
            · rw [toRows, List.filter_cons]
              simp only [hrun, decide_eq_true_eq, if_false]
              exact hout2
            · rw [keptLen, if_neg hrun]
              simp [hsum2]

theorem sum_filter_fiber (rows : List (String × Int)) :
    ∀ s : Finset String, (∀ r ∈ rows, r.1 ∈ s) →
      (∑ k ∈ s, ((rows.filter (fun r => decide (r.1 = k))).map Prod.snd).sum)
        = (rows.map Prod.snd).sum := by
  induction rows with
  | nil => intro s _; simp
  | cons a rows ih =>
      intro s hmem
      have ha : a.1 ∈ s := hmem a (by simp)
      have hrows : ∀ r ∈ rows, r.1 ∈ s := fun r hr => hmem r (by simp [hr])
      have hsplit : ∀ k, ((List.filter (fun r => decide (r.1 = k)) (a :: rows)).map Prod.snd).sum
          = (if a.1 = k then a.2 else 0)
            + ((List.filter (fun r => decide (r.1 = k)) rows).map Prod.snd).sum := by
        intro k
        rw [List.filter_cons]
        by_cases h : a.1 = k
        · simp [h]
        · simp [h]
      calc (∑ k ∈ s, ((List.filter (fun r => decide (r.1 = k)) (a :: rows)).map Prod.snd).sum)
          = ∑ k ∈ s, ((if a.1 = k then a.2 else 0)
              + ((List.filter (fun r => decide (r.1 = k)) rows).map Prod.snd).sum) := by
            exact Finset.sum_congr rfl (fun k _ => hsplit k)
        _ = (∑ k ∈ s, (if a.1 = k then a.2 else 0))
              + ∑ k ∈ s, ((List.filter (fun r => decide (r.1 = k)) rows).map Prod.snd).sum := by
            rw [Finset.sum_add_distrib]
        _ = a.2 + (rows.map Prod.snd).sum := by
            rw [Finset.sum_ite_eq s a.1 (fun _ => a.2), if_pos ha, ih s hrows]
        _ = ((a :: rows).map Prod.snd).sum := by simp

theorem groupSums_sum (rows : List (String × Int)) :
    ((groupSums rows).map Prod.snd).sum = (rows.map Prod.snd).sum := by
  have hnd : (rows.map Prod.fst).dedup.Nodup := List.nodup_dedup _
  have hmem : ∀ r ∈ rows, r.1 ∈ (rows.map Prod.fst).dedup.toFinset := by
    intro r hr
    rw [List.mem_toFinset, List.mem_dedup]
    exact List.mem_map.mpr ⟨r, hr, rfl⟩
  have h1 : ((groupSums rows).map Prod.snd).sum
      = ((rows.map Prod.fst).dedup.map
          (fun k => ((rows.filter (fun r => decide (r.1 = k))).map Prod.snd).sum)).sum := by
    rw [groupSums, List.map_map]
    rfl
  rw [h1, ← List.sum_toFinset _ hnd]
  exact sum_filter_fiber rows _ hmem

theorem exists_bound_events {cats : List Cat} {x : Int} (hx : x ∈ allPts cats) :
    ∀ idx : Nat, (∃ e ∈ allEventsAux idx cats, e.1 ≤ x) ∧ (∃ e ∈ allEventsAux idx cats, x < e.1) := by
  induction cats with
  | nil => intro idx; simp [allPts] at hx
  | cons c rest ih =>
      intro idx
      rcases mem_allPts.mp hx with ⟨d, hd, hdp⟩
      rcases List.mem_cons.mp hd with rfl | hd2
      · obtain ⟨i, hi, hits, hien⟩ := mem_catPts.mp hdp
        constructor
        · refine ⟨(i.ts, (2 : Int) ^ idx), ?_, hits⟩
          rw [allEventsAux, List.mem_append]
          left
          rw [meltIv, List.mem_append]
          left
          exact List.mem_map.mpr ⟨i, hi, rfl⟩
        · refine ⟨(i.en, -((2 : Int) ^ idx)), ?_, hien⟩
          rw [allEventsAux, List.mem_append]
          left
          rw [meltIv, List.mem_append]
          right
          exact List.mem_map.mpr ⟨i, hi, rfl⟩
      · have hxr : x ∈ allPts rest := mem_allPts.mpr ⟨d, hd2, hdp⟩
        obtain ⟨⟨e1, he1, hb1⟩, ⟨e2, he2, hb2⟩⟩ := ih hxr (idx + 1)
        constructor
        · exact ⟨e1, by rw [allEventsAux, List.mem_append]; right; exact he1, hb1⟩
        · exact ⟨e2, by rw [allEventsAux, List.mem_append]; right; exact he2, hb2⟩

theorem sweepSegs_eq_allPts {cats : List Cat} (hm : ∀ c ∈ cats, MergedSet c.2) :
    sweepSegs 0 (sweepEvents cats) = allPts cats := by
  ext x
  rw [mem_sweepSegs (sweepEvents_sorted cats) 0 x]
  have hperm := sweepEvents_perm cats
  have hcount : countLE (sweepEvents cats) x = countLE (allEventsAux 0 cats) x :=
    countLE_perm hperm x
  obtain ⟨hnn, hpos⟩ := countLE_allEventsAux x cats hm 0
  constructor
  · rintro ⟨hp, _, _⟩
    rw [zero_add, hcount] at hp
    exact hpos.mp hp
  · intro hx
    obtain ⟨⟨e1, he1, hb1⟩, ⟨e2, he2, hb2⟩⟩ := exists_bound_events hx 0
    refine ⟨by rw [zero_add, hcount]; exact hpos.mpr hx,
      ⟨e1, hperm.mem_iff.mpr he1, hb1⟩, ⟨e2, hperm.mem_iff.mpr he2, hb2⟩⟩

/-- C1: for pre-merged per-category interval sets, the sweep-line overlap
classification of `_get_gpu_kernel_type_time` conserves time: the pipeline
succeeds and the sum of the per-label totals equals the total number of time
points covered by the union of all categories' intervals.  Segments where no
category is active contribute nothing (they are excluded by the
`running > 0` filter), and no covered time is double-counted or lost. -/
theorem overlap_classification_conserves_time (cats : List Cat)
    (out : List (String × Int)) (hm : ∀ c ∈ cats, MergedSet c.2)
    (hout : getGpuKernelTypeTime cats = some out) :
    (out.map Prod.snd).sum = ((allPts cats).card : Int) := by
  have hsorted := sweepEvents_sorted cats
  have htot : totalD (sweepEvents cats) = 0 := by
    rw [totalD_perm (sweepEvents_perm cats)]
    exact totalD_allEventsAux 0 cats
  obtain ⟨out0, hout0, hsum0⟩ :=
    pipeline_sum cats (sweepEvents cats) 0 hsorted (by omega)
  rw [getGpuKernelTypeTime, keptRows, hout0] at hout
  have hout' : groupSums out0 = out := by
    simpa using hout
  rw [← hout', groupSums_sum, hsum0, ← card_sweepSegs hsorted 0,
    sweepSegs_eq_allPts hm]

/-- Witness for C1 at a concrete input: computation `[0,10)` and
communication `[5,15)` (each trivially merged) give label totals summing to
`15`, the size of `[0,15)`. -/
theorem overlap_classification_conserves_time_witness :
    (∀ c ∈ [("COMPUTATION", [Iv.mk 0 10]), ("COMMUNICATION", [Iv.mk 5 15])], MergedSet c.2)
      ∧ getGpuKernelTypeTime [("COMPUTATION", [Iv.mk 0 10]), ("COMMUNICATION", [Iv.mk 5 15])]
          = some [("COMPUTATION", 5), ("COMPUTATION overlapping COMMUNICATION", 5),
              ("COMMUNICATION", 5)]
      ∧ (([("COMPUTATION", 5), ("COMPUTATION overlapping COMMUNICATION", 5),
              ("COMMUNICATION", 5)].map Prod.snd).sum : Int)
          = ((allPts [("COMPUTATION", [Iv.mk 0 10]), ("COMMUNICATION", [Iv.mk 5 15])]).card : Int) := by
  refine ⟨by simp only [MergedSet]; decide, by decide, ?_⟩
  exact overlap_classification_conserves_time _ _ (by simp only [MergedSet]; decide) (by decide)

/-- Columns of the per-rank `result` dict built by the loop of
`get_temporal_breakdown` (breakdown_analysis.py lines 689-700). -/
def temporalResultDictColumns : List String :=
  ["rank", "idle_time(us)", "compute_time(us)", "non_compute_time(us)",
   "kernel_time(us)", "comm_time(us)", "mem_time(us)"]

/-- Columns present in `result_df` after the ratio/percentage assignments of
`get_temporal_breakdown` (lines 702-721): each of the four tracked metrics
gains a ratio column and a rounded percentage column.  No
`non_compute_time_pctg` column is ever assigned. -/
def temporalAssignedColumns : List String :=
  temporalResultDictColumns ++
    ["idle_time", "idle_time_pctg", "compute_time", "compute_time_pctg",
     "comm_time", "comm_time_pctg", "mem_time", "mem_time_pctg"]

/-- The column list of the final selection
`result_df[[...]]` (lines 740-755). -/
def temporalSelectedColumns : List String :=
  ["rank", "idle_time(us)", "compute_time(us)", "comm_time(us)", "mem_time(us)",
   "non_compute_time(us)", "kernel_time(us)", "idle_time_pctg", "compute_time_pctg",
   "comm_time_pctg", "mem_time_pctg", "non_compute_time_pctg"]

/-- Embeds the final step of `get_temporal_breakdown`: selecting a list of
columns from `result_df`.  Selecting a column that was never assigned raises a
pandas `KeyError`, modelled as `none`; on success the selected column list is
returned. -/
def getTemporalBreakdownColumns : Option (List String) :=
  if temporalSelectedColumns.all (fun c => temporalAssignedColumns.contains c) then
    some temporalSelectedColumns
  else none

/-- C2 (code bug): `get_temporal_breakdown` never returns a table: its final
column selection names `non_compute_time_pctg`, which no statement of the
function ever assigns, so the selection raises a `KeyError` for every trace.
The claimed output contract (all twelve columns present and populated) is
unsatisfiable as the code stands. -/
theorem temporal_breakdown_selection_raises : getTemporalBreakdownColumns = none := by
  decide

/-- Row of an aggregated kernel table: the `groupby("name")` aggregate columns
`sum`, `max`, `min`, `mean`, `std` of `_aggr_gpu_kernel_time`.  `mean` is kept
as an exact rational.  The `std` field carries the SQUARE of the pandas
sample standard deviation (the `ddof = 1` sample variance): the square root of
a rational is not rational, and every property stated below about `std`
(being zero, or being recomputed from a given value list) is preserved and
reflected by the square root, so nothing is lost.  The `fillna({"std": 0})`
of the source - mapping the `NaN` std of a singleton group to `0` - is applied
in `mkAggRow`. -/
structure AggRow where
  name : String
  sum : Int
  max : Int
  min : Int
  mean : ℚ
  std : ℚ
deriving DecidableEq, Repr

/-- Sum aggregate of a value list. -/
def listSum (l : List Int) : Int := l.sum

/-- Max aggregate of a (nonempty) value list. -/
def listMax : List Int → Int
  | [] => 0
  | x :: xs => xs.foldl max x

/-- Min aggregate of a (nonempty) value list. -/
def listMin : List Int → Int
  | [] => 0
  | x :: xs => xs.foldl min x

/-- Mean aggregate of a (nonempty) value list. -/
def listMean (l : List Int) : ℚ := (l.sum : ℚ) / (l.length : ℚ)

/-- Sample variance (`ddof = 1`), the square of the pandas `std` aggregate;
`none` is the `NaN` std of a group with fewer than two samples. -/
def sampleVar (l : List Int) : Option ℚ :=
  if l.length < 2 then none
  else some (((l.map (fun x => ((x : ℚ) - listMean l) ^ 2)).sum) / ((l.length : ℚ) - 1))

/-- One aggregated row for key `k` over its grouped values, with the
`fillna({"std": 0})` applied. -/
def mkAggRow (k : String) (vals : List Int) : AggRow :=
  ⟨k, listSum vals, listMax vals, listMin vals, listMean vals, (sampleVar vals).getD 0⟩

/-- The values grouped under key `k` (the rows of the frame whose key column
equals `k`, in frame order). -/
def groupVals (xs : List (String × Int)) (k : String) : List Int :=
  (xs.filter (fun r => decide (r.1 = k))).map Prod.snd

/-- Descending order on the aggregated `sum` column, as in
`sort_values(by=["sum"], ascending=False)`. -/
def sumDesc (a b : AggRow) : Prop := b.sum ≤ a.sum

instance : DecidableRel sumDesc := fun a b => inferInstanceAs (Decidable (b.sum ≤ a.sum))

instance : IsTotal AggRow sumDesc := ⟨fun a b => le_total b.sum a.sum⟩

instance : IsTrans AggRow sumDesc := ⟨fun _ _ _ h1 h2 => le_trans h2 h1⟩

/-- Embeds the first aggregation pass of `_aggr_gpu_kernel_time`
(lines 588-595): `groupby(by=["name"])["dur"].agg(["sum","max","min","mean","std"])`
(one row per distinct name), `fillna({"std": 0})`, then sort by `sum`
descending. -/
def aggrPass1 (samples : List (String × Int)) : List AggRow :=
  List.insertionSort sumDesc
    (((samples.map Prod.fst).dedup).map (fun k => mkAggRow k (groupVals samples k)))

/-- Embeds `keep_idx`: `name.isin(allowlist_names)` when an allowlist is
given, the always-false mask `sum < 0` otherwise (sums being non-negative in
practice; the source comment itself says "always false"). -/
def keepName (allow : Option (List String)) (n : String) : Bool :=
  match allow with
  | some al => al.contains n
  | none => false

/-- The running cumulative sum column `cumsum` zipped onto the rows. -/
def cumSums : Int → List AggRow → List (AggRow × Int)
  | _, [] => []
  | acc, r :: rs => (r, acc + r.sum) :: cumSums (acc + r.sum) rs

/-- Decides `c > Series(vals).quantile(q)` in exact integer arithmetic.
`Series.quantile` sorts the values ascending and linearly interpolates at
position `h = (n - 1) * q`: with `i = ⌊h⌋` the quantile is
`s[i] + (h - i) * (s[i+1] - s[i])`.  Multiplying the comparison through by
the positive denominator of `q` gives the integer test below;
`exceedsQuantile_eq_decide` proves it equal to the rational comparison
against `seriesQuantile`. -/
def exceedsQuantile (vals : List Int) (q : ℚ) (c : Int) : Bool :=
  let s := List.insertionSort (fun a b : Int => a ≤ b) vals
  let n := s.length
  let hnum := ((n : Int) - 1) * q.num
  let i := hnum / (q.den : Int)
  let lo := s.getD i.toNat 0
  let hi := s.getD (i.toNat + 1) lo
  decide ((hnum - i * (q.den : Int)) * (hi - lo) < (q.den : Int) * (c - lo))

/-- The linear-interpolation quantile of `Series(vals).quantile(q)`, as an
exact rational (specification-side view of `exceedsQuantile`). -/
def seriesQuantile (vals : List Int) (q : ℚ) : ℚ :=
  let s := List.insertionSort (fun a b : Int => a ≤ b) vals
  let h : ℚ := ((s.length : ℚ) - 1) * q
  let i := ⌊h⌋
  let lo : ℚ := ((s.getD i.toNat 0 : Int) : ℚ)
  let hi : ℚ := ((s.getD (i.toNat + 1) (s.getD i.toNat 0) : Int) : ℚ)
  lo + (h - (i : ℚ)) * (hi - lo)

/-- Embeds the two renaming `.loc` assignments of `_aggr_gpu_kernel_time`
(lines 609-615) in one pass over the cumsum-annotated rows: a row whose name
is not allowlisted is renamed to `"others"` if its cumulative sum exceeds the
`duration_ratio` quantile of the cumsum column, or if its position is at or
past `num_kernels`.  (The source performs the two assignments sequentially
with a keep mask computed on the original names; both writes store the
constant `"others"`, and a row renamed by the first write satisfies the
second vacuously, so the fused disjunction is the same function.) -/
def collapseRename (allow : Option (List String)) (nk : Nat) (vals : List Int) (q : ℚ) :
    Nat → List (AggRow × Int) → List AggRow
  | _, [] => []
  | i, (r, c) :: rs =>
      (if !keepName allow r.name && (exceedsQuantile vals q c || decide (nk ≤ i)) then
        { r with name := "others" }
      else r) :: collapseRename allow nk vals q (i + 1) rs

/-- The renamed first-pass frame entering the second aggregation. -/
def collapseBranch (rows : List AggRow) (nk : Nat) (q : ℚ)
    (allow : Option (List String)) : List AggRow :=
  collapseRename allow nk ((cumSums 0 rows).map Prod.snd) q 0 (cumSums 0 rows)

/-- The `(name, sum)` columns of a frame, the only data consumed by the second
aggregation pass `groupby(by=["name"])["sum"]`. -/
def pass2Pairs (rows : List AggRow) : List (String × Int) :=
  rows.map (fun r => (r.name, r.sum))

/-- Embeds the second aggregation pass (lines 616-620):
`groupby(by=["name"])["sum"].agg(["sum","max","min","mean","std"])` with
`fillna({"std": 0})` - all five statistics are recomputed from the per-name
`sum` column alone. -/
def aggrPass2 (rows : List AggRow) : List AggRow :=
  (((pass2Pairs rows).map Prod.fst).dedup).map
    (fun k => mkAggRow k (groupVals (pass2Pairs rows) k))

/-- Embeds `_aggr_gpu_kernel_time` (lines 563-622): aggregate per name, sort
by sum descending, and - only when the number of distinct names exceeds
`num_kernels` - rename the tail to `"others"` and re-aggregate the `sum`
column by name. -/
def aggrGpuKernelTime (samples : List (String × Int)) (numKernels : Nat)
    (durationRatio : ℚ) (allowlistNames : Option (List String)) : List AggRow :=
  if numKernels < (aggrPass1 samples).length then
    aggrPass2 (collapseBranch (aggrPass1 samples) numKernels durationRatio allowlistNames)
  else aggrPass1 samples

/-- The first-pass sums collected under `"others"` by the collapse. -/
def othersSums (samples : List (String × Int)) (nk : Nat) (q : ℚ)
    (allow : Option (List String)) : List Int :=
  groupVals (pass2Pairs (collapseBranch (aggrPass1 samples) nk q allow)) "others"

/-- C4 counterexample: `duration_ratio` alone never causes collapsing.  With
two distinct names, `num_kernels = 5` and the minimal ratio `0`, the claim
asserts the groups past the quantile threshold are renamed to `"others"`; in
fact the whole collapse branch is guarded by `len > num_kernels`, so the
output keeps both names untouched. -/
theorem aggr_ratio_alone_does_not_collapse :
    aggrGpuKernelTime [("A", 3), ("A", 4), ("B", 5)] 5 (mkRat 0 1) none
        = aggrPass1 [("A", 3), ("A", 4), ("B", 5)]
      ∧ ((aggrGpuKernelTime [("A", 3), ("A", 4), ("B", 5)] 5 (mkRat 0 1) none).map
          (fun r => r.name)) = ["A", "B"] := by
  constructor
  · unfold aggrGpuKernelTime
    rw [if_neg (by decide)]
  · decide

/-- C4 (amended): `num_kernels` and `duration_ratio` are not independent
collapse triggers - the entire renaming branch (quantile rule included) runs
only when the number of distinct names exceeds `num_kernels`; otherwise the
first-pass aggregate is returned unchanged for every `duration_ratio`. -/
theorem aggr_collapse_requires_count_over_cap (samples : List (String × Int))
    (nk : Nat) (q : ℚ) (allow : Option (List String))
    (h : (aggrPass1 samples).length ≤ nk) :
    aggrGpuKernelTime samples nk q allow = aggrPass1 samples := by
  unfold aggrGpuKernelTime
  rw [if_neg (by omega)]

/-- Witness for the amended C4 at a concrete input. -/
theorem aggr_collapse_requires_count_over_cap_witness :
    (aggrPass1 [("A", 3), ("A", 4), ("B", 5)]).length ≤ 5
      ∧ aggrGpuKernelTime [("A", 3), ("A", 4), ("B", 5)] 5 (mkRat 0 1) none
          = aggrPass1 [("A", 3), ("A", 4), ("B", 5)] :=
  ⟨by decide, aggr_collapse_requires_count_over_cap _ _ _ _ (by decide)⟩

/-- C3 counterexample: the `"others"` row is not the max-of-maxes /
min-of-mins of the renamed groups.  Groups `A` (samples 3, 4: sum 7, max 4,
min 3) and `B` (sample 5: sum 5, max 5, min 5) are both renamed; the claim
predicts `others.max = max(4, 5) = 5`, but the code re-aggregates only the
`sum` column and reports `others.max = max(7, 5) = 7`. -/
theorem aggr_others_not_max_of_maxes :
    ((aggrPass1 [("A", 3), ("A", 4), ("B", 5)]).map (fun r => (r.name, r.sum, r.max, r.min)))
        = [("A", 7, 4, 3), ("B", 5, 5, 5)]
      ∧ ((collapseBranch (aggrPass1 [("A", 3), ("A", 4), ("B", 5)]) 0 (mkRat 1 2) none).map
          (fun r => r.name)) = ["others", "others"]
      ∧ ((aggrGpuKernelTime [("A", 3), ("A", 4), ("B", 5)] 0 (mkRat 1 2) none).map
          (fun r => (r.name, r.max, r.min))) = [("others", 7, 5)]
      ∧ listMax [4, 5] = 5 ∧ listMin [3, 5] = 3
      ∧ (7 : Int) ≠ 5 ∧ (5 : Int) ≠ 3 := by
  decide

/-- C3 (amended): when collapsing occurs, the synthetic `"others"` row
re-aggregates the renamed groups' first-pass `sum` values only: its `sum` is
the sum of those sums, its `max`/`min` are the max/min OF THE SUMS (not of
the groups' maxes/mins), and its mean and (squared) stddev are recomputed
over those sums. -/
theorem aggr_others_row_reaggregates_group_sums (samples : List (String × Int))
    (nk : Nat) (q : ℚ) (allow : Option (List String)) (r : AggRow)
    (hlen : nk < (aggrPass1 samples).length)
    (hr : r ∈ aggrGpuKernelTime samples nk q allow) (hname : r.name = "others") :
    r.sum = listSum (othersSums samples nk q allow)
      ∧ r.max = listMax (othersSums samples nk q allow)
      ∧ r.min = listMin (othersSums samples nk q allow)
      ∧ r.mean = listMean (othersSums samples nk q allow)
      ∧ r.std = (sampleVar (othersSums samples nk q allow)).getD 0 := by
  rw [aggrGpuKernelTime, if_pos hlen] at hr
  rw [aggrPass2] at hr
  obtain ⟨k, hk, rfl⟩ := List.mem_map.mp hr
  have hk2 : k = "others" := hname
  subst hk2
  exact ⟨rfl, rfl, rfl, rfl, rfl⟩

/-- Witness for the amended C3 at a concrete input (both groups renamed). -/
theorem aggr_others_row_reaggregates_group_sums_witness :
    (0 < (aggrPass1 [("A", 3), ("A", 4), ("B", 5)]).length)
      ∧ ((mkAggRow "others" (othersSums [("A", 3), ("A", 4), ("B", 5)] 0 (mkRat 1 2) none)).sum
            = listSum (othersSums [("A", 3), ("A", 4), ("B", 5)] 0 (mkRat 1 2) none)
          ∧ (mkAggRow "others" (othersSums [("A", 3), ("A", 4), ("B", 5)] 0 (mkRat 1 2) none)).max
            = listMax (othersSums [("A", 3), ("A", 4), ("B", 5)] 0 (mkRat 1 2) none)
          ∧ (mkAggRow "others" (othersSums [("A", 3), ("A", 4), ("B", 5)] 0 (mkRat 1 2) none)).min
            = listMin (othersSums [("A", 3), ("A", 4), ("B", 5)] 0 (mkRat 1 2) none)
          ∧ (mkAggRow "others" (othersSums [("A", 3), ("A", 4), ("B", 5)] 0 (mkRat 1 2) none)).mean
            = listMean (othersSums [("A", 3), ("A", 4), ("B", 5)] 0 (mkRat 1 2) none)
          ∧ (mkAggRow "others" (othersSums [("A", 3), ("A", 4), ("B", 5)] 0 (mkRat 1 2) none)).std
            = (sampleVar (othersSums [("A", 3), ("A", 4), ("B", 5)] 0 (mkRat 1 2) none)).getD 0) := by
  refine ⟨by decide, ?_⟩
  refine aggr_others_row_reaggregates_group_sums [("A", 3), ("A", 4), ("B", 5)] 0 (mkRat 1 2) none
    _ (by decide) ?_ rfl
  rw [aggrGpuKernelTime, if_pos (by decide)]
  rw [aggrPass2]
  exact List.mem_map.mpr ⟨"others", by decide, rfl⟩

theorem map_name_mkAggRow (f : String → List Int) :
    ∀ ks : List String, ((ks.map (fun k => mkAggRow k (f k))).map (fun r => r.name)) = ks := by
  intro ks
  induction ks with
  | nil => rfl
  | cons a t ih =>
      simp only [List.map_cons, ih]
      rfl

theorem aggrPass1_names_nodup (samples : List (String × Int)) :
    ((aggrPass1 samples).map (fun r => r.name)).Nodup := by
  have hperm : (aggrPass1 samples).Perm
      (((samples.map Prod.fst).dedup).map (fun k => mkAggRow k (groupVals samples k))) :=
    List.perm_insertionSort _ _
  refine ((hperm.map (fun r => r.name)).nodup_iff).mpr ?_
  rw [map_name_mkAggRow (fun k => groupVals samples k)]
  exact List.nodup_dedup _

theorem cumSums_map_fst (rows : List AggRow) :
    ∀ acc : Int, (cumSums acc rows).map Prod.fst = rows := by
  induction rows with
  | nil => intro acc; simp [cumSums]
  | cons r rs ih => intro acc; simp [cumSums, ih]

theorem collapseRename_forall2 (allow : Option (List String)) (nk : Nat)
    (vals : List Int) (q : ℚ) :
    ∀ (prs : List (AggRow × Int)) (i : Nat),
      List.Forall₂ (fun (p : AggRow × Int) (r : AggRow) =>
        r = p.1 ∨ r = { p.1 with name := "others" }) prs
        (collapseRename allow nk vals q i prs) := by
  intro prs
  induction prs with
  | nil => intro i; exact List.Forall₂.nil
  | cons p rs ih =>
      intro i
      obtain ⟨r, c⟩ := p
      rw [collapseRename]
      refine List.Forall₂.cons ?_ (ih (i + 1))
      by_cases h : (!keepName allow r.name && (exceedsQuantile vals q c || decide (nk ≤ i))) = true
      · rw [if_pos h]; right; rfl
      · rw [if_neg h]; left; rfl

theorem filter_name_sublist {k : String} (hk : k ≠ "others") :
    ∀ {prs : List (AggRow × Int)} {out : List AggRow},
      List.Forall₂ (fun (p : AggRow × Int) (r : AggRow) =>
        r = p.1 ∨ r = { p.1 with name := "others" }) prs out →
      (out.filter (fun r => decide (r.name = k))).Sublist
        ((prs.map Prod.fst).filter (fun r => decide (r.name = k))) := by
  intro prs out h
  induction h with
  | nil => simp
  | @cons p r rs out2 hpr hrest ih =>
      simp only [List.map_cons, List.filter_cons]
      rcases hpr with rfl | rfl
      · by_cases hn : p.1.name = k
        · rw [if_pos (by simpa using hn), if_pos (by simpa using hn)]
          exact ih.cons₂ _
        · rw [if_neg (by simpa using hn), if_neg (by simpa using hn)]
          exact ih
      · have hno : ({ p.1 with name := "others" } : AggRow).name ≠ k := fun hc => hk hc.symm
        rw [if_neg (by simpa using hno)]
        by_cases hn : p.1.name = k
        · rw [if_pos (by simpa using hn)]
          exact ih.cons _
        · rw [if_neg (by simpa using hn)]
          exact ih

theorem length_filter_name_le_one {l : List AggRow}
    (h : (l.map (fun r => r.name)).Nodup) (k : String) :
    (l.filter (fun r => decide (r.name = k))).length ≤ 1 := by
  induction l with
  | nil => simp
  | cons a l ih =>
      rw [List.map_cons, List.nodup_cons] at h
      rw [List.filter_cons]
      by_cases hn : a.name = k
      · rw [if_pos (by simpa using hn)]
        have hempty : l.filter (fun r => decide (r.name = k)) = [] := by
          rw [List.filter_eq_nil_iff]
          intro x hx
          simp only [decide_eq_true_eq]
          intro hc
          exact h.1 (List.mem_map.mpr ⟨x, hx, by rw [hc, hn]⟩)
        rw [hempty]
        simp
      · rw [if_neg (by simpa using hn)]
        exact ih h.2

theorem pass2Pairs_filter (rows : List AggRow) (k : String) :
    (pass2Pairs rows).filter (fun r => decide (r.1 = k))
      = (rows.filter (fun r => decide (r.name = k))).map (fun r => (r.name, r.sum)) := by
  induction rows with
  | nil => simp [pass2Pairs]
  | cons a rows ih =>
      simp only [pass2Pairs, List.map_cons, List.filter_cons] at *
      by_cases hn : a.name = k
      · rw [if_pos (by simpa using hn), if_pos (by simpa using hn), List.map_cons, ih]
      · rw [if_neg (by simpa using hn), if_neg (by simpa using hn), ih]

/-- C9: whenever collapsing occurs, the second aggregation pass destroys the
per-sample statistics of every surviving row that was NOT renamed: each such
name forms a singleton group of its first-pass `sum`, so its reported max,
min and mean all collapse to its sum and its (squared) stddev becomes the
0-filled `NaN` of a singleton group. -/
theorem aggr_collapse_kept_rows_degenerate (samples : List (String × Int))
    (nk : Nat) (q : ℚ) (allow : Option (List String)) (r : AggRow)
    (hlen : nk < (aggrPass1 samples).length)
    (hr : r ∈ aggrGpuKernelTime samples nk q allow) (hname : r.name ≠ "others") :
    r.max = r.sum ∧ r.min = r.sum ∧ r.mean = (r.sum : ℚ) ∧ r.std = 0 := by
  rw [aggrGpuKernelTime, if_pos hlen] at hr
  rw [aggrPass2] at hr
  obtain ⟨k, hk, rfl⟩ := List.mem_map.mp hr
  have hkname : (mkAggRow k (groupVals (pass2Pairs
      (collapseBranch (aggrPass1 samples) nk q allow)) k)).name = k := rfl
  have hko : k ≠ "others" := by rw [hkname] at hname; exact hname
  -- the group of `k` in the renamed frame is a singleton
  have hf2 := collapseRename_forall2 allow nk
    ((cumSums 0 (aggrPass1 samples)).map Prod.snd) q (cumSums 0 (aggrPass1 samples)) 0
  have hsub := filter_name_sublist hko hf2
  rw [cumSums_map_fst] at hsub
  have hle1 : ((collapseBranch (aggrPass1 samples) nk q allow).filter
      (fun r => decide (r.name = k))).length ≤ 1 := by
    refine le_trans (List.Sublist.length_le ?_) (length_filter_name_le_one (aggrPass1_names_nodup samples) k)
    exact hsub
  have hmem : ∃ x ∈ collapseBranch (aggrPass1 samples) nk q allow, x.name = k := by
    rw [List.mem_dedup, List.mem_map] at hk
    obtain ⟨pr, hpr, hprk⟩ := hk
    rw [pass2Pairs, List.mem_map] at hpr
    obtain ⟨x, hx, rfl⟩ := hpr
    exact ⟨x, hx, hprk⟩
  obtain ⟨x, hx, hxk⟩ := hmem
  have hxin : x ∈ (collapseBranch (aggrPass1 samples) nk q allow).filter
      (fun r => decide (r.name = k)) := by
    rw [List.mem_filter]
    exact ⟨hx, by simpa using hxk⟩
  have hsingle : (collapseBranch (aggrPass1 samples) nk q allow).filter
      (fun r => decide (r.name = k)) = [x] := by
    match hfe : (collapseBranch (aggrPass1 samples) nk q allow).filter
        (fun r => decide (r.name = k)), hle1, hxin with
    | [], _, hxin => rw [hfe] at hxin; exact absurd hxin (by simp)
    | [y], _, hxin =>
        rw [hfe] at hxin
        simp only [List.mem_singleton] at hxin
        rw [hxin]
        exact hfe
    | y :: z :: t, hle1, _ => rw [hfe] at hle1; simp at hle1
  have hvals : groupVals (pass2Pairs (collapseBranch (aggrPass1 samples) nk q allow)) k
      = [x.sum] := by
    rw [groupVals, pass2Pairs_filter, hsingle]
    rfl
  rw [hvals]
  refine ⟨?_, ?_, ?_, ?_⟩
  · show listMax [x.sum] = listSum [x.sum]
    simp [listMax, listSum]
  · show listMin [x.sum] = listSum [x.sum]
    simp [listMin, listSum]
  · show listMean [x.sum] = ((listSum [x.sum] : Int) : ℚ)
    rw [listMean, listSum]
    simp
  · show (sampleVar [x.sum]).getD 0 = 0
    rw [sampleVar]
    simp

/-- The kept row `A` of the C9 witness computation. -/
def c9KeptRow : AggRow :=
  mkAggRow "A" (groupVals (pass2Pairs (collapseBranch
    (aggrPass1 [("A", 3), ("A", 4), ("B", 5)]) 1 (mkRat 1 1) none)) "A")

/-- Witness for C9 at a concrete input: with names `A`, `B` and
`num_kernels = 1`, group `B` is renamed and the kept row `A` (samples 3 and 4,
so first-pass max 4, min 3) reports `max = min = mean = sum = 7` and stddev 0. -/
theorem aggr_collapse_kept_rows_degenerate_witness :
    (1 < (aggrPass1 [("A", 3), ("A", 4), ("B", 5)]).length)
      ∧ (c9KeptRow.max = c9KeptRow.sum ∧ c9KeptRow.min = c9KeptRow.sum
          ∧ c9KeptRow.mean = (c9KeptRow.sum : ℚ) ∧ c9KeptRow.std = 0) := by
  refine ⟨by decide, ?_⟩
  refine aggr_collapse_kept_rows_degenerate [("A", 3), ("A", 4), ("B", 5)] 1 (mkRat 1 1) none
    _ (by decide) ?_ (by decide)
  rw [aggrGpuKernelTime, if_pos (by decide)]
  rw [aggrPass2]
  exact List.mem_map.mpr ⟨"A", by decide, rfl⟩

/-- Result of a pandas float division: a finite rational, `NaN`, or a signed
infinity.  Only divisions of finite (integer-valued) operands occur in the
embedded code paths, and division by zero follows IEEE-754:
`0/0 = NaN`, `x/0 = sign(x) * inf`. -/
inductive PdVal
  | num (q : ℚ)
  | nan
  | inf
  | ninf
deriving DecidableEq, Repr

/-- Embeds pandas float division of two integer-valued cells
(`Rat.divInt a b` equals `(a : ℚ) / (b : ℚ)`, lemma `Rat.divInt_eq_div`). -/
def pdDivInt (a b : Int) : PdVal :=
  if b = 0 then (if a = 0 then PdVal.nan else if 0 < a then PdVal.inf else PdVal.ninf)
  else PdVal.num (Rat.divInt a b)

/-- The idle-time categories of `IdleTimeType` (hta/utils/utils.py, an
external enum interface: only the three member tags matter here; the enum's
integer values would only fix the groupby row order, on which no claim
depends). -/
inductive IdleTimeType
  | hostWait
  | kernelWait
  | other
deriving DecidableEq, Repr

/-- One GPU kernel entering `_analyze_idle_time_for_stream`: its stream, its
`ts`/`dur` columns, and the `ts_runtime` column produced by the
`index_correlation` join of `get_idle_time_breakdown` (`none` when the kernel
has no correlated runtime event, pandas `NaN`). -/
structure IdleKernel where
  stream : Int
  ts : Int
  dur : Int
  tsRuntime : Option Int
deriving DecidableEq, Repr

/-- Ordering by the `ts` column, as in `sort_values(by="ts")`. -/
def tsLe (a b : IdleKernel) : Prop := a.ts ≤ b.ts

instance : DecidableRel tsLe := fun a b => inferInstanceAs (Decidable (a.ts ≤ b.ts))

instance : IsTotal IdleKernel tsLe := ⟨fun a b => le_total a.ts b.ts⟩

instance : IsTrans IdleKernel tsLe := ⟨fun _ _ _ h1 h2 => le_trans h1 h2⟩

/-- One row of the per-stream frame after the feature computations of
`_analyze_idle_time_for_stream`: `prev_end_ts = end_ts.shift(1)` and
`idle_interval = ts - prev_end_ts` are `NaN` (`none`) on the first row. -/
structure IdleRow where
  kern : IdleKernel
  prevEnd : Option Int
  idle : Option Int
  cat : IdleTimeType
deriving DecidableEq, Repr

/-- Embeds `idle_interval = ts - prev_end_ts` (`NaN` propagates). -/
def optSub (a : Int) : Option Int → Option Int
  | some p => some (a - p)
  | none => none

/-- Embeds the mask `ts_runtime > prev_end_ts`; any comparison against `NaN`
is false. -/
def isHostWait (k : IdleKernel) (prevEnd : Option Int) : Bool :=
  match k.tsRuntime, prevEnd with
  | some r, some p => decide (p < r)
  | _, _ => false

/-- Category of one row: default `OTHER`, overridden to `HOST_WAIT` by the
host-wait mask, then to `KERNEL_WAIT` by `~is_host_wait & (idle_interval <
consecutive_kernel_delay)` (comparisons with `NaN` idle are false). -/
def classifyRow (delay : Int) (k : IdleKernel) (prevEnd : Option Int) : IdleTimeType :=
  if isHostWait k prevEnd then IdleTimeType.hostWait
  else if (match optSub k.ts prevEnd with
    | some g => decide (g < delay)
    | none => false) then IdleTimeType.kernelWait
  else IdleTimeType.other

/-- Builds the rows in start order, threading each kernel's `end_ts` to the
next row as `prev_end_ts` (the `shift(1)`); the first row gets `none`. -/
def idleRowsAux (delay : Int) : Option Int → List IdleKernel → List IdleRow
  | _, [] => []
  | prev, k :: ks =>
      { kern := k, prevEnd := prev, idle := optSub k.ts prev,
        cat := classifyRow delay k prev } :: idleRowsAux delay (some (k.ts + k.dur)) ks

/-- Embeds `gpu_kernels[gpu_kernels.stream == stream].sort_values(by="ts")`. -/
def sortKernels (ks : List IdleKernel) : List IdleKernel := List.insertionSort tsLe ks

/-- The classified per-stream rows of `_analyze_idle_time_for_stream`. -/
def idleRowsOf (stream : Int) (ks : List IdleKernel) (delay : Int) : List IdleRow :=
  idleRowsAux delay none (sortKernels (ks.filter (fun k => decide (k.stream = stream))))

/-- Sum of a float column with pandas `skipna` semantics: `NaN` cells
contribute nothing. -/
def optValSum (l : List (Option Int)) : Int := (l.map (fun o => o.getD 0)).sum

/-- Embeds `groupby("idle_category").idle_interval.sum()` for one category. -/
def catTotal (rows : List IdleRow) (c : IdleTimeType) : Int :=
  optValSum ((rows.filter (fun r => decide (r.cat = c))).map (fun r => r.idle))

/-- All category tags, in a fixed order; the groupby emits one row per
category actually present among the rows. -/
def idleCatList : List IdleTimeType :=
  [IdleTimeType.hostWait, IdleTimeType.kernelWait, IdleTimeType.other]

/-- The categories present among the rows (the groupby keys). -/
def presentCats (rows : List IdleRow) : List IdleTimeType :=
  idleCatList.filter (fun c => rows.any (fun r => decide (r.cat = c)))

/-- Embeds `total_idle_time = result.idle_interval.sum()` (the sum of the
grouped sums). -/
def streamIdleTotal (rows : List IdleRow) : Int :=
  ((presentCats rows).map (fun c => catTotal rows c)).sum

/-- One output row of `_analyze_idle_time_for_stream`:
`{idle_category, idle_time, stream, idle_time_ratio}`. -/
structure IdleOut where
  cat : IdleTimeType
  idleTime : Int
  stream : Int
  ratio : PdVal
deriving DecidableEq, Repr

/-- Embeds `_analyze_idle_time_for_stream` (lines 757-828): filter to the
stream, sort by start, compute `idle_interval` gaps and categories, group by
category summing the gaps, and attach `idle_time_ratio = idle_time /
total_idle_time` (float division). -/
def analyzeIdleTimeForStream (stream : Int) (ks : List IdleKernel) (delay : Int) :
    List IdleOut :=
  (presentCats (idleRowsOf stream ks delay)).map
    (fun c => ⟨c, catTotal (idleRowsOf stream ks delay) c, stream,
      pdDivInt (catTotal (idleRowsOf stream ks delay) c)
        (streamIdleTotal (idleRowsOf stream ks delay))⟩)

/-- Specification-side view of the gaps: for each consecutive pair of the
start-sorted kernels (from a known previous end), the classified raw gap
`ts - prev_end`, of any sign. -/
def specGapsFrom (delay : Int) : Int → List IdleKernel → List (IdleTimeType × Int)
  | _, [] => []
  | e, k :: ks =>
      (classifyRow delay k (some e), k.ts - e) :: specGapsFrom delay (k.ts + k.dur) ks

/-- The classified raw gaps of all consecutive pairs of a kernel list. -/
def specGaps (delay : Int) : List IdleKernel → List (IdleTimeType × Int)
  | [] => []
  | a :: rest => specGapsFrom delay (a.ts + a.dur) rest

theorem catTotal_cons (r : IdleRow) (rows : List IdleRow) (c : IdleTimeType) :
    catTotal (r :: rows) c
      = (if r.cat = c then r.idle.getD 0 else 0) + catTotal rows c := by
  by_cases h : r.cat = c
  · simp [catTotal, optValSum, List.filter_cons, h]
  · simp [catTotal, optValSum, List.filter_cons, h]

theorem catTotal_idleRowsAux (delay : Int) (c : IdleTimeType) :
    ∀ (ks : List IdleKernel) (e : Int),
      catTotal (idleRowsAux delay (some e) ks) c
        = (((specGapsFrom delay e ks).filter (fun g => decide (g.1 = c))).map Prod.snd).sum := by
  intro ks
  induction ks with
  | nil => intro e; simp [idleRowsAux, specGapsFrom, catTotal, optValSum]
  | cons k ks ih =>
      intro e
      rw [idleRowsAux, catTotal_cons, specGapsFrom, List.filter_cons]
      by_cases h : classifyRow delay k (some e) = c
      · simp [h, optSub, ih]
      · simp [h, optSub, ih]

theorem catTotal_eq_specGaps (stream : Int) (ks : List IdleKernel) (delay : Int)
    (c : IdleTimeType) :
    catTotal (idleRowsOf stream ks delay) c
      = (((specGaps delay (sortKernels (ks.filter (fun k => decide (k.stream = stream))))).filter
          (fun g => decide (g.1 = c))).map Prod.snd).sum := by
  rw [idleRowsOf]
  rcases hsort : sortKernels (ks.filter (fun k => decide (k.stream = stream))) with _ | ⟨k, rest⟩
  · simp [idleRowsAux, specGaps, catTotal, optValSum]
  · rw [idleRowsAux, catTotal_cons, specGaps]
    simp only [optSub, Option.getD_none]
    rw [catTotal_idleRowsAux]
    by_cases h : classifyRow delay k none = c
    · rw [if_pos h]; simp
    · rw [if_neg h]; simp

/-- C5 (amended): non-positive gaps are NOT skipped.  Every idle-category
total reported by `_analyze_idle_time_for_stream` equals the sum of the raw
signed gaps `start - previous.end` of all consecutive start-sorted kernel
pairs classified into that category: a pair of touching kernels (gap `0`)
adds nothing, but an overlapping pair (negative gap) subtracts its overlap
from the category's total instead of being skipped. -/
theorem idle_totals_are_raw_gap_sums (stream : Int) (ks : List IdleKernel)
    (delay : Int) (o : IdleOut) (ho : o ∈ analyzeIdleTimeForStream stream ks delay) :
    o.idleTime
      = (((specGaps delay (sortKernels (ks.filter (fun k => decide (k.stream = stream))))).filter
          (fun g => decide (g.1 = o.cat))).map Prod.snd).sum := by
  rw [analyzeIdleTimeForStream] at ho
  obtain ⟨c, hc, rfl⟩ := List.mem_map.mp ho
  exact catTotal_eq_specGaps stream ks delay c

/-- C5 counterexample: on one stream, kernel K1 `[0, 100)` and K2 `[50, 60)`
overlap (gap `= -50 <= 0`); the claim says such a pair contributes no idle
time to any category total, yet the `kernel_wait` total comes out as `-50`,
not `0`. -/
theorem idle_negative_gap_contributes_negative :
    analyzeIdleTimeForStream 7 [⟨7, 0, 100, some 0⟩, ⟨7, 50, 10, some 10⟩] 10
        = [⟨IdleTimeType.kernelWait, -50, 7, PdVal.num 1⟩,
           ⟨IdleTimeType.other, 0, 7, PdVal.num 0⟩]
      ∧ specGaps 10 (sortKernels ([⟨7, 0, 100, some 0⟩,
            ⟨7, 50, 10, some 10⟩].filter (fun k => decide (k.stream = 7))))
          = [(IdleTimeType.kernelWait, -50)]
      ∧ ((-50 : Int) ≠ 0) := by
  decide

/-- Witness for the amended C5 at the same concrete input: the reported
`kernel_wait` total `-50` equals the raw signed gap sum of its pairs. -/
theorem idle_totals_are_raw_gap_sums_witness :
    (IdleOut.mk IdleTimeType.kernelWait (-50) 7 (PdVal.num 1)
        ∈ analyzeIdleTimeForStream 7 [⟨7, 0, 100, some 0⟩, ⟨7, 50, 10, some 10⟩] 10)
      ∧ (IdleOut.mk IdleTimeType.kernelWait (-50) 7 (PdVal.num 1)).idleTime
          = (((specGaps 10 (sortKernels ([⟨7, 0, 100, some 0⟩,
              ⟨7, 50, 10, some 10⟩].filter (fun k => decide (k.stream = 7))))).filter
              (fun g => decide (g.1 = (IdleOut.mk IdleTimeType.kernelWait (-50) 7
                (PdVal.num 1)).cat))).map Prod.snd).sum :=
  ⟨by decide, idle_totals_are_raw_gap_sums 7 [⟨7, 0, 100, some 0⟩, ⟨7, 50, 10, some 10⟩] 10
    (IdleOut.mk IdleTimeType.kernelWait (-50) 7 (PdVal.num 1)) (by decide)⟩

/-- Finiteness of a pandas float value. -/
def pdIsFinite : PdVal → Prop
  | PdVal.num _ => True
  | _ => False

/-- C10 (amended): when a stream's total summed idle interval is zero, every
`idle_time_ratio` it reports is produced by dividing by that zero total and
is a non-finite float: `NaN` when the category's own total is also zero, and
a signed infinity (not `NaN`) when negative overlap gaps cancel positive gaps
across categories so that a category total is nonzero. -/
theorem idle_ratios_not_finite_when_total_zero (stream : Int) (ks : List IdleKernel)
    (delay : Int) (htot : streamIdleTotal (idleRowsOf stream ks delay) = 0)
    (o : IdleOut) (ho : o ∈ analyzeIdleTimeForStream stream ks delay) :
    ¬ pdIsFinite o.ratio
      ∧ (o.ratio = PdVal.nan ∨ o.ratio = PdVal.inf ∨ o.ratio = PdVal.ninf) := by
  rw [analyzeIdleTimeForStream] at ho
  obtain ⟨c, hc, rfl⟩ := List.mem_map.mp ho
  simp only [htot]
  rw [pdDivInt, if_pos rfl]
  by_cases h0 : catTotal (idleRowsOf stream ks delay) c = 0
  · rw [if_pos h0]
    exact ⟨by simp [pdIsFinite], Or.inl rfl⟩
  · rw [if_neg h0]
    by_cases hpos : 0 < catTotal (idleRowsOf stream ks delay) c
    · rw [if_pos hpos]
      exact ⟨by simp [pdIsFinite], Or.inr (Or.inl rfl)⟩
    · rw [if_neg hpos]
      exact ⟨by simp [pdIsFinite], Or.inr (Or.inr rfl)⟩

/-- C10 counterexample: the claim says the ratios of a zero-total stream are
`NaN`.  With K1 `[0, 100)`, an overlapping K2 `[50, 60)` launched late
(`ts_runtime = 150`, host wait, gap `-50`) and K3 `[110, 115)`
(kernel wait, gap `+50`), the total idle is `0` but the `host_wait` ratio is
`-inf` and the `kernel_wait` ratio is `+inf` - non-finite, yet not `NaN`. -/
theorem idle_zero_total_ratio_not_nan :
    analyzeIdleTimeForStream 7
        [⟨7, 0, 100, some 0⟩, ⟨7, 50, 10, some 150⟩, ⟨7, 110, 5, some 0⟩] 60
        = [⟨IdleTimeType.hostWait, -50, 7, PdVal.ninf⟩,
           ⟨IdleTimeType.kernelWait, 50, 7, PdVal.inf⟩,
           ⟨IdleTimeType.other, 0, 7, PdVal.nan⟩]
      ∧ streamIdleTotal (idleRowsOf 7
          [⟨7, 0, 100, some 0⟩, ⟨7, 50, 10, some 150⟩, ⟨7, 110, 5, some 0⟩] 60) = 0
      ∧ PdVal.ninf ≠ PdVal.nan ∧ PdVal.inf ≠ PdVal.nan := by
  decide

/-- Witness for the amended C10: a stream carrying a single kernel has total
idle `0`, and its only row (category `other`) reports a `NaN` ratio. -/
theorem idle_ratios_not_finite_when_total_zero_witness :
    streamIdleTotal (idleRowsOf 3 [⟨3, 0, 5, none⟩] 10) = 0
      ∧ (IdleOut.mk IdleTimeType.other 0 3 PdVal.nan
          ∈ analyzeIdleTimeForStream 3 [⟨3, 0, 5, none⟩] 10)
      ∧ (¬ pdIsFinite (IdleOut.mk IdleTimeType.other 0 3 PdVal.nan).ratio
          ∧ ((IdleOut.mk IdleTimeType.other 0 3 PdVal.nan).ratio = PdVal.nan
            ∨ (IdleOut.mk IdleTimeType.other 0 3 PdVal.nan).ratio = PdVal.inf
            ∨ (IdleOut.mk IdleTimeType.other 0 3 PdVal.nan).ratio = PdVal.ninf)) :=
  ⟨by decide, by decide,
    idle_ratios_not_finite_when_total_zero 3 [⟨3, 0, 5, none⟩] 10 (by decide)
      (IdleOut.mk IdleTimeType.other 0 3 PdVal.nan) (by decide)⟩

/-- Kernel-type tags as classified by `get_kernel_type`
(hta/utils/utils.py, an external classifier of kernel names; only the tag of
each kernel matters here, so kernels carry their type as data). -/
inductive KTy
  | computation
  | communication
  | memory
  | other
deriving DecidableEq, Repr

/-- One GPU kernel row of one rank (`stream != -1`), with its `ts` and `dur`
columns and its `kernel_type` tag. -/
structure GKernel where
  ts : Int
  dur : Int
  ktype : KTy
deriving DecidableEq, Repr

/-- The `[ts, end)` interval of a kernel (`end = ts + dur`). -/
def GKernel.iv (k : GKernel) : Iv := ⟨k.ts, k.ts + k.dur⟩

/-- Ordering of intervals by start. -/
def ivLe (a b : Iv) : Prop := a.ts ≤ b.ts

instance : DecidableRel ivLe := fun a b => inferInstanceAs (Decidable (a.ts ≤ b.ts))

instance : IsTotal Iv ivLe := ⟨fun a b => le_total a.ts b.ts⟩

instance : IsTrans Iv ivLe := ⟨fun _ _ _ h1 h2 => le_trans h1 h2⟩

/-- Modelled from the spec: the scan of `merge_kernel_intervals`
(hta/utils/utils.py, not under src/), spec section 4.1: extend the current
merged interval's end with `max(end, next.end)` whenever
`next.start <= current.end`, otherwise close the current interval and open a
new one. -/
def mergeScan (cur : Iv) : List Iv → List Iv
  | [] => [cur]
  | j :: rest =>
      if j.ts ≤ cur.en then mergeScan ⟨cur.ts, max cur.en j.en⟩ rest
      else cur :: mergeScan j rest

/-- Modelled from the spec: `merge_kernel_intervals` (hta/utils/utils.py, not
under src/), spec section 4.1: sort the intervals by start, then scan,
merging overlapping or touching intervals; empty input yields empty output. -/
def mergeKernelIntervals (l : List Iv) : List Iv :=
  match List.insertionSort ivLe l with
  | [] => []
  | i :: rest => mergeScan i rest

/-- Embeds `_get_idle_time_for_kernels` (lines 624-639): on the merged
kernel intervals, `kernel_time = last.end - first.ts` (raising on an empty
set, hence `none`) and `idle_time = kernel_time - (sum(end) - sum(ts))`.
Returns `(idle_time, kernel_time)`. -/
def idleTimeForKernels (ks : List GKernel) : Option (Int × Int) :=
  match mergeKernelIntervals (ks.map GKernel.iv) with
  | [] => none
  | m :: ms =>
      some ((((m :: ms).getLast (List.cons_ne_nil m ms)).en - m.ts)
          - ((((m :: ms).map Iv.en).sum) - (((m :: ms).map Iv.ts).sum)),
        ((m :: ms).getLast (List.cons_ne_nil m ms)).en - m.ts)

/-- Embeds `comp_kernels.end.sum() - comp_kernels.ts.sum()` for one kernel
type: the total merged busy time of that type's kernels. -/
def typeTime (ks : List GKernel) (t : KTy) : Int :=
  ((mergeKernelIntervals ((ks.filter (fun k => decide (k.ktype = t))).map GKernel.iv)).map Iv.en).sum
    - ((mergeKernelIntervals ((ks.filter (fun k => decide (k.ktype = t))).map GKernel.iv)).map Iv.ts).sum

/-- The six quantities returned by `idle_time_per_rank`. -/
structure TemporalRow where
  idle : Int
  compute : Int
  comm : Int
  mem : Int
  nonCompute : Int
  kernelTime : Int
deriving DecidableEq, Repr

/-- The values computed by `idle_time_per_rank` (lines 648-687) before its
`assert` statements: idle and kernel time from the full merged set, each
kernel type's time from its own merge, and
`non_compute_time = kernel_time - compute_time - idle_time`.
`none` models the `iloc[-1]` failure on a rank without GPU kernels. -/
def idleTimePerRankNoAssert (ks : List GKernel) : Option TemporalRow :=
  match idleTimeForKernels ks with
  | none => none
  | some (i, kt) =>
      some ⟨i, typeTime ks KTy.computation, typeTime ks KTy.communication,
        typeTime ks KTy.memory, kt - typeTime ks KTy.computation - i, kt⟩

/-- Embeds `idle_time_per_rank` including its five `assert` statements
(lines 681-685); an assertion failure is `none`. -/
def idleTimePerRank (ks : List GKernel) : Option TemporalRow :=
  match idleTimePerRankNoAssert ks with
  | none => none
  | some row =>
      if row.idle ≤ row.kernelTime ∧ row.compute ≤ row.kernelTime
          ∧ 0 ≤ row.nonCompute ∧ row.comm ≤ row.kernelTime
          ∧ row.mem ≤ row.kernelTime then some row
      else none

/-- Embeds `100 * (x / kernel_time)` on a float cell. -/
def pdMulInt (n : Int) : PdVal → PdVal
  | PdVal.num q => PdVal.num ((n : ℚ) * q)
  | v => v

/-- Embeds `round(y, 2)`: rounding a float to two decimals
(`round(y * 100) / 100`; numpy rounds ties to even while Mathlib's `round`
rounds them up - the bound statements below are insensitive to the tie
direction). Non-finite values round to themselves. -/
def pdRound2 : PdVal → PdVal
  | PdVal.num q => PdVal.num (((round (q * 100) : Int) : ℚ) / 100)
  | v => v

/-- The percentage columns of `get_temporal_breakdown` (lines 702-721):
`round(100 * (x / kernel_time), 2)` as float arithmetic. -/
def pctgOf (x kt : Int) : PdVal := pdRound2 (pdMulInt 100 (pdDivInt x kt))

/-- A pandas float value lying in `[lo, hi]` (false for `NaN`/infinities). -/
def pdWithin (v : PdVal) (lo hi : ℚ) : Prop :=
  match v with
  | PdVal.num q => lo ≤ q ∧ q ≤ hi
  | _ => False

/-- Adjacent separation invariant of a merged interval list. -/
def IvChain (l : List Iv) : Prop := List.Chain' (fun a b => a.en < b.ts) l

theorem mergeScan_spec :
    ∀ (rest : List Iv) (cur : Iv), cur.ts ≤ cur.en → (∀ j ∈ rest, j.ts ≤ j.en) →
      (∀ j ∈ rest, cur.ts ≤ j.ts) → List.Pairwise ivLe rest →
      (∃ m ms, mergeScan cur rest = Iv.mk cur.ts m :: ms)
        ∧ (∀ i ∈ mergeScan cur rest, i.ts ≤ i.en)
        ∧ IvChain (mergeScan cur rest)
        ∧ catPts (mergeScan cur rest) = cur.pts ∪ catPts rest := by
  intro rest
  induction rest with
  | nil =>
      intro cur hwf _ _ _
      refine ⟨⟨cur.en, [], rfl⟩, ?_, ?_, ?_⟩
      · intro i hi
        simp only [mergeScan, List.mem_singleton] at hi
        rw [hi]; exact hwf
      · simp [mergeScan, IvChain]
      · simp [mergeScan, catPts]
  | cons j rest ih =>
      intro cur hcur hwf hts hsorted
      have hjwf : j.ts ≤ j.en := hwf j (by simp)
      have hrwf : ∀ i ∈ rest, i.ts ≤ i.en := fun i hi => hwf i (by simp [hi])
      have hjts : cur.ts ≤ j.ts := hts j (by simp)
      have hjrest : ∀ i ∈ rest, j.ts ≤ i.ts := (List.pairwise_cons.mp hsorted).1
      have hrsorted : List.Pairwise ivLe rest := (List.pairwise_cons.mp hsorted).2
      rw [mergeScan]
      by_cases hj : j.ts ≤ cur.en
      · rw [if_pos hj]
        have hcur2 : (Iv.mk cur.ts (max cur.en j.en)).ts ≤ (Iv.mk cur.ts (max cur.en j.en)).en := by
          simp only
          omega
        have hts2 : ∀ i ∈ rest, (Iv.mk cur.ts (max cur.en j.en)).ts ≤ i.ts := by
          intro i hi
          exact le_trans hjts (hjrest i hi)
        obtain ⟨⟨m, ms, hm⟩, hwfo, hchain, hunion⟩ := ih _ hcur2 hrwf hts2 hrsorted
        refine ⟨⟨m, ms, hm⟩, hwfo, hchain, ?_⟩
        rw [hunion]
        have hico : (Iv.mk cur.ts (max cur.en j.en)).pts = cur.pts ∪ j.pts := by
          simp only [Iv.pts]
          rw [Finset.Ico_union_Ico' hj (le_trans hjts hjwf)]
          rw [min_eq_left hjts]
        rw [hico, catPts]
        simp only [catPts]
        rw [Finset.union_assoc]
        rfl
      · rw [if_neg hj]
        have hj2 : cur.en < j.ts := by omega
        obtain ⟨⟨m, ms, hm⟩, hwfo, hchain, hunion⟩ := ih j hjwf hrwf hjrest hrsorted
        refine ⟨⟨cur.en, mergeScan j rest, rfl⟩, ?_, ?_, ?_⟩
        · intro i hi
          rcases List.mem_cons.mp hi with rfl | hi2
          · exact hcur
          · exact hwfo i hi2
        · rw [IvChain, List.chain'_cons']
          constructor
          · intro h hh
            rw [hm] at hh
            simp only [List.head?_cons, Option.mem_def, Option.some.injEq] at hh
            rw [← hh]
            exact hj2
          · exact hchain
        · show cur.pts ∪ catPts (mergeScan j rest) = cur.pts ∪ catPts (j :: rest)
          rw [hunion]
          rfl

theorem ivchain_head_ts_le {a : Iv} {t : List Iv} (hc : IvChain (a :: t))
    (hwf : ∀ i ∈ a :: t, i.ts ≤ i.en) : ∀ i ∈ a :: t, a.ts ≤ i.ts := by
  induction t generalizing a with
  | nil =>
      intro i hi
      rcases List.mem_singleton.mp hi with rfl
      exact le_refl _
  | cons b t2 ih =>
      intro i hi
      have hab : a.en < b.ts := (List.chain'_cons.mp hc).1
      have hct : IvChain (b :: t2) := (List.chain'_cons.mp hc).2
      have hawf : a.ts ≤ a.en := hwf a (by simp)
      rcases List.mem_cons.mp hi with rfl | hi2
      · exact le_refl _
      · have := ih hct (fun i hi => hwf i (by simp [hi])) i hi2
        omega

theorem ivchain_en_le_last {a : Iv} {t : List Iv} (hc : IvChain (a :: t))
    (hwf : ∀ i ∈ a :: t, i.ts ≤ i.en) :
    ∀ i ∈ a :: t, i.en ≤ ((a :: t).getLast (List.cons_ne_nil a t)).en := by
  induction t generalizing a with
  | nil =>
      intro i hi
      rcases List.mem_singleton.mp hi with rfl
      simp [List.getLast]
  | cons b t2 ih =>
      intro i hi
      have hab : a.en < b.ts := (List.chain'_cons.mp hc).1
      have hct : IvChain (b :: t2) := (List.chain'_cons.mp hc).2
      have hwf2 : ∀ i ∈ b :: t2, i.ts ≤ i.en := fun i hi => hwf i (by simp [hi])
      have hlast : ((a :: b :: t2).getLast (List.cons_ne_nil a _)).en
          = ((b :: t2).getLast (List.cons_ne_nil b t2)).en := by
        rw [List.getLast_cons]
      rw [hlast]
      rcases List.mem_cons.mp hi with rfl | hi2
      · have hben := ih hct hwf2 b (by simp)
        have hbwf : b.ts ≤ b.en := hwf b (by simp)
        omega
      · exact ih hct hwf2 i hi2

theorem ivchain_card {l : List Iv} (hc : IvChain l) (hwf : ∀ i ∈ l, i.ts ≤ i.en) :
    ((catPts l).card : Int) = (l.map Iv.en).sum - (l.map Iv.ts).sum := by
  induction l with
  | nil => simp [catPts]
  | cons b t ih =>
      have hct : IvChain t := List.Chain'.tail hc
      have hwf2 : ∀ i ∈ t, i.ts ≤ i.en := fun i hi => hwf i (by simp [hi])
      have hdisj : Disjoint b.pts (catPts t) := by
        rw [Finset.disjoint_left]
        intro x hx hx2
        obtain ⟨i, hi, hits, hien⟩ := mem_catPts.mp hx2
        match t, hct, hwf2, hc, hi with
        | c :: t2, hct, hwf2, hc, hi =>
            have hbc : b.en < c.ts := (List.chain'_cons.mp hc).1
            have hcts := ivchain_head_ts_le hct hwf2 i hi
            rw [Iv.pts, Finset.mem_Ico] at hx
            omega
      have hcard : catPts (b :: t) = b.pts ∪ catPts t := rfl
      rw [hcard, Finset.card_union_of_disjoint hdisj]
      push_cast
      rw [ih hct hwf2]
      have hbwf : b.ts ≤ b.en := hwf b (by simp)
      rw [Iv.pts, Int.card_Ico, Int.toNat_of_nonneg (by omega)]
      simp only [List.map_cons, List.sum_cons]
      ring

theorem catPts_perm {l1 l2 : List Iv} (h : l1.Perm l2) : catPts l1 = catPts l2 := by
  ext x
  rw [mem_catPts, mem_catPts]
  constructor
  · rintro ⟨i, hi, hp⟩; exact ⟨i, h.mem_iff.mp hi, hp⟩
  · rintro ⟨i, hi, hp⟩; exact ⟨i, h.mem_iff.mpr hi, hp⟩

theorem merge_facts (l : List Iv) (hwf : ∀ i ∈ l, i.ts ≤ i.en) :
    (∀ i ∈ mergeKernelIntervals l, i.ts ≤ i.en)
      ∧ IvChain (mergeKernelIntervals l)
      ∧ catPts (mergeKernelIntervals l) = catPts l
      ∧ (l = [] ↔ mergeKernelIntervals l = []) := by
  have hperm : (List.insertionSort ivLe l).Perm l := List.perm_insertionSort ivLe l
  have hsorted : List.Pairwise ivLe (List.insertionSort ivLe l) :=
    List.sorted_insertionSort ivLe l
  rcases hs : List.insertionSort ivLe l with _ | ⟨i, rest⟩
  · have hl : l = [] := by
      rw [hs] at hperm
      exact (List.Perm.nil_eq hperm).symm
    rw [mergeKernelIntervals, hs]
    subst hl
    simp [IvChain]
  · rw [hs] at hperm hsorted
    have hiwf : i.ts ≤ i.en := hwf i (hperm.mem_iff.mp (by simp))
    have hrwf : ∀ j ∈ rest, j.ts ≤ j.en := fun j hj =>
      hwf j (hperm.mem_iff.mp (by simp [hj]))
    have hits : ∀ j ∈ rest, i.ts ≤ j.ts := fun j hj =>
      (List.pairwise_cons.mp hsorted).1 j hj
    have hrsorted : List.Pairwise ivLe rest := (List.pairwise_cons.mp hsorted).2
    obtain ⟨⟨m, ms, hm⟩, hwfo, hchain, hunion⟩ :=
      mergeScan_spec rest i hiwf hrwf hits hrsorted
    have hme : mergeKernelIntervals l = mergeScan i rest := by
      rw [mergeKernelIntervals, hs]
    refine ⟨by rw [hme]; exact hwfo, by rw [hme]; exact hchain, ?_, ?_⟩
    · rw [hme, hunion]
      have : i.pts ∪ catPts rest = catPts (i :: rest) := rfl
      rw [this]
      exact catPts_perm hperm
    · constructor
      · intro hl
        subst hl
        exact List.noConfusion (show ([] : List Iv) = i :: rest from hs)
      · intro hmerge
        rw [hme, hm] at hmerge
        exact absurd hmerge (by simp)

theorem merge_len_eq_card (l : List Iv) (hwf : ∀ i ∈ l, i.ts ≤ i.en) :
    ((mergeKernelIntervals l).map Iv.en).sum - ((mergeKernelIntervals l).map Iv.ts).sum
      = ((catPts l).card : Int) := by
  obtain ⟨hwfo, hchain, hunion, _⟩ := merge_facts l hwf
  rw [← hunion, ivchain_card hchain hwfo]

theorem idleTimeForKernels_spec (ks : List GKernel) (hne : ks ≠ [])
    (hdur : ∀ k ∈ ks, 0 ≤ k.dur) :
    ∃ a b, a ≤ b
      ∧ idleTimeForKernels ks
          = some ((b - a) - ((catPts (ks.map GKernel.iv)).card : Int), b - a)
      ∧ catPts (ks.map GKernel.iv) ⊆ Finset.Ico a b := by
  have hwf : ∀ i ∈ ks.map GKernel.iv, i.ts ≤ i.en := by
    intro i hi
    obtain ⟨k, hk, rfl⟩ := List.mem_map.mp hi
    have := hdur k hk
    simp only [GKernel.iv]
    omega
  obtain ⟨hwfo, hchain, hunion, hnil⟩ := merge_facts (ks.map GKernel.iv) hwf
  rcases hM : mergeKernelIntervals (ks.map GKernel.iv) with _ | ⟨m, ms⟩
  · exfalso
    have : ks.map GKernel.iv = [] := hnil.mpr hM
    exact hne (List.map_eq_nil_iff.mp this)
  · rw [hM] at hwfo hchain hunion
    refine ⟨m.ts, ((m :: ms).getLast (List.cons_ne_nil m ms)).en, ?_, ?_, ?_⟩
    · have h1 : m.ts ≤ m.en := hwfo m (by simp)
      have h2 := ivchain_en_le_last hchain hwfo m (by simp)
      omega
    · rw [idleTimeForKernels, hM]
      have hlen : ((m :: ms).map Iv.en).sum - ((m :: ms).map Iv.ts).sum
          = ((catPts (ks.map GKernel.iv)).card : Int) := by
        rw [← hM]
        exact merge_len_eq_card _ hwf
      show some ((((m :: ms).getLast (List.cons_ne_nil m ms)).en - m.ts)
          - (((m :: ms).map Iv.en).sum - ((m :: ms).map Iv.ts).sum),
        ((m :: ms).getLast (List.cons_ne_nil m ms)).en - m.ts) = _
      rw [hlen]
    · intro x hx
      rw [← hunion] at hx
      obtain ⟨i, hi, hits, hien⟩ := mem_catPts.mp hx
      have h1 := ivchain_head_ts_le hchain hwfo i hi
      have h2 := ivchain_en_le_last hchain hwfo i hi
      rw [Finset.mem_Ico]
      omega

theorem typeTime_eq_card (ks : List GKernel) (t : KTy)
    (hdur : ∀ k ∈ ks, 0 ≤ k.dur) :
    typeTime ks t
      = ((catPts ((ks.filter (fun k => decide (k.ktype = t))).map GKernel.iv)).card : Int) := by
  have hwf : ∀ i ∈ (ks.filter (fun k => decide (k.ktype = t))).map GKernel.iv, i.ts ≤ i.en := by
    intro i hi
    obtain ⟨k, hk, rfl⟩ := List.mem_map.mp hi
    have := hdur k (List.mem_of_mem_filter hk)
    simp only [GKernel.iv]
    omega
  rw [typeTime]
  exact merge_len_eq_card _ hwf

theorem catPts_filter_subset (ks : List GKernel) (t : KTy) :
    catPts ((ks.filter (fun k => decide (k.ktype = t))).map GKernel.iv)
      ⊆ catPts (ks.map GKernel.iv) := by
  intro x hx
  obtain ⟨i, hi, hp⟩ := mem_catPts.mp hx
  obtain ⟨k, hk, rfl⟩ := List.mem_map.mp hi
  exact mem_catPts.mpr ⟨k.iv, List.mem_map.mpr ⟨k, List.mem_of_mem_filter hk, rfl⟩, hp⟩

theorem pctgOf_within {x kt : Int} (h0 : 0 ≤ x) (h1 : x ≤ kt) (hkt : 0 < kt) :
    pdWithin (pctgOf x kt) 0 100 := by
  have hktne : kt ≠ 0 := by omega
  rw [pctgOf, pdDivInt, if_neg hktne]
  simp only [pdMulInt, pdRound2, pdWithin]
  rw [Rat.divInt_eq_div]
  have hkq : (0 : ℚ) < (kt : ℚ) := by exact_mod_cast hkt
  have hq0 : (0 : ℚ) ≤ (x : ℚ) / (kt : ℚ) := div_nonneg (by exact_mod_cast h0) (le_of_lt hkq)
  have hq1 : (x : ℚ) / (kt : ℚ) ≤ 1 := (div_le_one hkq).mpr (by exact_mod_cast h1)
  have hw0 : (0 : ℚ) ≤ (100 : ℚ) * ((x : ℚ) / (kt : ℚ)) * 100 := by nlinarith
  have hw1 : (100 : ℚ) * ((x : ℚ) / (kt : ℚ)) * 100 ≤ 10000 := by nlinarith
  have hr0 : 0 ≤ round ((100 : ℚ) * ((x : ℚ) / (kt : ℚ)) * 100) := by
    rw [round_eq]
    apply Int.le_floor.mpr
    push_cast
    linarith
  have hr1 : round ((100 : ℚ) * ((x : ℚ) / (kt : ℚ)) * 100) ≤ 10000 := by
    rw [round_eq]
    have hlt : (⌊(100 : ℚ) * ((x : ℚ) / (kt : ℚ)) * 100 + 1 / 2⌋ : ℤ) < 10001 := by
      apply Int.floor_lt.mpr
      push_cast
      linarith
    omega
  constructor
  · apply div_nonneg _ (by norm_num)
    exact_mod_cast hr0
  · rw [div_le_iff₀ (by norm_num : (0 : ℚ) < 100)]
    have : ((round ((100 : ℚ) * ((x : ℚ) / (kt : ℚ)) * 100) : ℤ) : ℚ) ≤ 10000 := by
      exact_mod_cast hr1
    linarith

theorem idleTimePerRank_eq_of (ks : List GKernel) (row : TemporalRow)
    (h : idleTimePerRankNoAssert ks = some row)
    (h1 : row.idle ≤ row.kernelTime) (h2 : row.compute ≤ row.kernelTime)
    (h3 : 0 ≤ row.nonCompute) (h4 : row.comm ≤ row.kernelTime)
    (h5 : row.mem ≤ row.kernelTime) :
    idleTimePerRank ks = some row := by
  rw [idleTimePerRank, h]
  show (if row.idle ≤ row.kernelTime ∧ row.compute ≤ row.kernelTime
      ∧ 0 ≤ row.nonCompute ∧ row.comm ≤ row.kernelTime
      ∧ row.mem ≤ row.kernelTime then some row else none) = some row
  rw [if_pos ⟨h1, h2, h3, h4, h5⟩]

/-- C6 (amended): for every rank with a non-empty GPU-kernel set and
non-negative durations, the quantities of `idle_time_per_rank` satisfy all
five `assert` statements (`idle <= kernel_window`, `compute <= kernel_window`,
`comm <= kernel_window`, `mem <= kernel_window`, `non_compute >= 0`), so the
call returns its row; and PROVIDED the kernel window has positive length,
each derived percentage lies in `[0, 100]`.  (With a zero-length window -
every event at one instant - the asserts still pass but the percentages are
`NaN`, see the counterexample.) -/
theorem temporal_breakdown_invariants (ks : List GKernel) (row : TemporalRow)
    (hne : ks ≠ []) (hdur : ∀ k ∈ ks, 0 ≤ k.dur)
    (hres : idleTimePerRankNoAssert ks = some row) :
    idleTimePerRank ks = some row
      ∧ (0 < row.kernelTime →
          pdWithin (pctgOf row.idle row.kernelTime) 0 100
            ∧ pdWithin (pctgOf row.compute row.kernelTime) 0 100
            ∧ pdWithin (pctgOf row.comm row.kernelTime) 0 100
            ∧ pdWithin (pctgOf row.mem row.kernelTime) 0 100) := by
  obtain ⟨a, b, hab, hsome, hsub⟩ := idleTimeForKernels_spec ks hne hdur
  have hres2 := hres
  rw [idleTimePerRankNoAssert, hsome] at hres2
  have hrow : row = ⟨(b - a) - ((catPts (ks.map GKernel.iv)).card : Int),
      typeTime ks KTy.computation, typeTime ks KTy.communication, typeTime ks KTy.memory,
      (b - a) - typeTime ks KTy.computation
        - ((b - a) - ((catPts (ks.map GKernel.iv)).card : Int)), b - a⟩ := by
    exact (Option.some.inj hres2).symm
  have hcard0 : (0 : Int) ≤ ((catPts (ks.map GKernel.iv)).card : Int) := by positivity
  have hcardw : ((catPts (ks.map GKernel.iv)).card : Int) ≤ b - a := by
    have h1 := Finset.card_le_card hsub
    have h2 : ((Finset.Ico a b).card : Int) = b - a := by
      rw [Int.card_Ico, Int.toNat_of_nonneg (by omega)]
    omega
  have htype : ∀ t : KTy, 0 ≤ typeTime ks t
      ∧ typeTime ks t ≤ ((catPts (ks.map GKernel.iv)).card : Int) := by
    intro t
    rw [typeTime_eq_card ks t hdur]
    constructor
    · positivity
    · exact_mod_cast Finset.card_le_card (catPts_filter_subset ks t)
  obtain ⟨hc0, hcu⟩ := htype KTy.computation
  obtain ⟨hco0, hcou⟩ := htype KTy.communication
  obtain ⟨hm0, hmu⟩ := htype KTy.memory
  subst hrow
  constructor
  · exact idleTimePerRank_eq_of ks _ hres (by simp only; omega) (by simp only; omega)
      (by simp only; omega) (by simp only; omega) (by simp only; omega)
  · intro hkt
    simp only at hkt
    refine ⟨pctgOf_within (by simp only; omega) (by simp only; omega) hkt,
      pctgOf_within (by simp only; omega) (by simp only; omega) hkt,
      pctgOf_within (by simp only; omega) (by simp only; omega) hkt,
      pctgOf_within (by simp only; omega) (by simp only; omega) hkt⟩

/-- C6 counterexample: a rank whose only kernel has zero duration passes all
asserts (`idle_time_per_rank` returns the all-zero row) but has a zero-length
kernel window, so each percentage is `0/0 = NaN`, not a number in `[0, 100]`. -/
theorem temporal_zero_window_pctg_nan :
    idleTimePerRank [⟨0, 0, KTy.computation⟩] = some ⟨0, 0, 0, 0, 0, 0⟩
      ∧ pctgOf 0 0 = PdVal.nan
      ∧ ¬ pdWithin PdVal.nan 0 100 :=
  ⟨by decide, by decide, fun h => h⟩

/-- Witness for the amended C6: computation `[0, 5)` and communication
`[3, 7)` give window 7, busy time 7, idle 0, compute 5, comm 4, mem 0,
non-compute 2; the asserts pass and all percentages are in range. -/
theorem temporal_breakdown_invariants_witness :
    ([(⟨0, 5, KTy.computation⟩ : GKernel), ⟨3, 4, KTy.communication⟩] ≠ [])
      ∧ (∀ k ∈ [(⟨0, 5, KTy.computation⟩ : GKernel), ⟨3, 4, KTy.communication⟩], 0 ≤ k.dur)
      ∧ idleTimePerRankNoAssert [(⟨0, 5, KTy.computation⟩ : GKernel), ⟨3, 4, KTy.communication⟩]
          = some ⟨0, 5, 4, 0, 2, 7⟩
      ∧ (idleTimePerRank [(⟨0, 5, KTy.computation⟩ : GKernel), ⟨3, 4, KTy.communication⟩]
            = some ⟨0, 5, 4, 0, 2, 7⟩
          ∧ (0 < (TemporalRow.mk 0 5 4 0 2 7).kernelTime →
              pdWithin (pctgOf (TemporalRow.mk 0 5 4 0 2 7).idle
                (TemporalRow.mk 0 5 4 0 2 7).kernelTime) 0 100
                ∧ pdWithin (pctgOf (TemporalRow.mk 0 5 4 0 2 7).compute
                    (TemporalRow.mk 0 5 4 0 2 7).kernelTime) 0 100
                ∧ pdWithin (pctgOf (TemporalRow.mk 0 5 4 0 2 7).comm
                    (TemporalRow.mk 0 5 4 0 2 7).kernelTime) 0 100
                ∧ pdWithin (pctgOf (TemporalRow.mk 0 5 4 0 2 7).mem
                    (TemporalRow.mk 0 5 4 0 2 7).kernelTime) 0 100)) :=
  ⟨by decide, by decide, by decide,
    temporal_breakdown_invariants _ _ (by decide) (by decide) (by decide)⟩

/-- One user-annotation row selected by `_get_gpu_user_anno_interval_dataframe`:
the `pid, tid, ts, end, dur, name` columns (`name` is a symbol id). -/
structure AnnoRow where
  pid : Int
  tid : Int
  ts : Int
  en : Int
  dur : Int
  name : Int
deriving DecidableEq, Repr

/-- One GPU-kernel row of the kernel interval dataframe, with the
`user_annotation` column (field `userAnno`, initialized to `-1`). -/
structure KernRow where
  pid : Int
  tid : Int
  ts : Int
  en : Int
  userAnno : Int
deriving DecidableEq, Repr

/-- Embeds `pandas.Interval.overlaps` on two left-closed intervals
`[a, b)` and `[c, d)`: `a < d && c < b` (strict at the open right ends). -/
def ivOverlaps (a b c d : Int) : Bool := decide (a < d) && decide (c < b)

/-- Ordering of annotations by duration descending, as in
`sort_values("dur", ascending=False)`. -/
def durDesc (x y : AnnoRow) : Prop := y.dur ≤ x.dur

instance : DecidableRel durDesc := fun a b => inferInstanceAs (Decidable (b.dur ≤ a.dur))

instance : IsTotal AnnoRow durDesc := ⟨fun a b => le_total b.dur a.dur⟩

instance : IsTrans AnnoRow durDesc := ⟨fun _ _ _ h1 h2 => le_trans h2 h1⟩

/-- The symbol table's `sym_id_map` / `sym_index` (external collaborator):
an association list from symbol names to ids. -/
def symIdGet (tbl : List (String × Int)) (s : String) : Option Int :=
  (tbl.find? (fun e => decide (e.1 = s))).map Prod.snd

/-- One trace-dataframe row, restricted to the columns the annotation
analyses read (`name` and `cat` are symbol ids). -/
structure TraceRow where
  cat : Int
  pid : Int
  tid : Int
  ts : Int
  dur : Int
  stream : Int
  name : Int
deriving DecidableEq, Repr

/-- The annotation view of a trace row (`end = ts + dur`). -/
def TraceRow.toAnno (r : TraceRow) : AnnoRow := ⟨r.pid, r.tid, r.ts, r.ts + r.dur, r.dur, r.name⟩

/-- The kernel view of a trace row, with `user_annotation` initialized
to `-1`. -/
def TraceRow.toKern (r : TraceRow) : KernRow := ⟨r.pid, r.tid, r.ts, r.ts + r.dur, -1⟩

/-- Embeds `_get_gpu_user_anno_interval_dataframe` (lines 237-269): `none`
when `"gpu_user_annotation"` has no id in the symbol map (the source's
`sym_id_map.get("gpu_user_annotation", -1) == -1`; ids are non-negative);
otherwise the rows of that category sorted by duration descending, so the
leaf/bottom of the stack is always processed last. -/
def gpuUserAnnoIntervalDataframe (tbl : List (String × Int)) (rows : List TraceRow) :
    Option (List AnnoRow) :=
  match symIdGet tbl "gpu_user_annotation" with
  | none => none
  | some idx =>
      some (List.insertionSort durDesc
        ((rows.filter (fun r => decide (r.cat = idx))).map TraceRow.toAnno))

/-- One write of `_associate_gpu_kernels_with_user_annotations`: assign the
annotation's name to every kernel of the same `(pid, tid)` whose interval
overlaps the annotation's interval. -/
def annoStep (pid tid : Int) (a : AnnoRow) (k : KernRow) : KernRow :=
  if k.pid = pid ∧ k.tid = tid ∧ ivOverlaps k.ts k.en a.ts a.en = true then
    { k with userAnno := a.name }
  else k

/-- The `(pid, tid)` combinations to scan over
(`drop_duplicates` of the annotation frame's pid/tid columns; the
partitions are disjoint, so their order is immaterial). -/
def pidTids (annos : List AnnoRow) : List (Int × Int) :=
  (annos.map (fun a => (a.pid, a.tid))).dedup

/-- Embeds `_associate_gpu_kernels_with_user_annotations` (lines 271-307):
for each `(pid, tid)` partition, loop over that partition's annotations (in
the given frame order, i.e. duration-descending) and overwrite the
`user_annotation` field of every overlapping kernel of that partition. -/
def associateGpuKernelsWithUserAnnos (ks : List KernRow) (annos : List AnnoRow) :
    List KernRow :=
  (pidTids annos).foldl
    (fun ks p =>
      (annos.filter (fun a => decide (a.pid = p.1) && decide (a.tid = p.2))).foldl
        (fun ks a => ks.map (annoStep p.1 p.2 a)) ks)
    ks

/-- Embeds `get_gpu_kernels_with_user_annotations` (lines 309-343): compute
`end`, initialize `user_annotation` to `-1`, return `none` (with a warning
logged) when the trace has no GPU user annotations, otherwise associate the
GPU kernels (the GPU-stream events, `GPUKernelFilter`) with the sorted
annotations. -/
def getGpuKernelsWithUserAnnos (tbl : List (String × Int)) (rows : List TraceRow) :
    Option (List KernRow) :=
  match gpuUserAnnoIntervalDataframe tbl rows with
  | none => none
  | some annos =>
      some (associateGpuKernelsWithUserAnnos
        ((rows.filter (fun r => decide (¬ r.stream = -1))).map TraceRow.toKern) annos)

/-- Ordering for the final `sort_values(by=["rank", "name"])`. -/
def rankNameLe (a b : Int × AggRow) : Prop :=
  a.1 < b.1 ∨ (a.1 = b.1 ∧ a.2.name ≤ b.2.name)

instance : DecidableRel rankNameLe := fun a b =>
  inferInstanceAs (Decidable (a.1 < b.1 ∨ (a.1 = b.1 ∧ a.2.name ≤ b.2.name)))

/-- Embeds `get_gpu_user_annotation_breakdown` (lines 345-492, visualization
aside): resolve the requested annotation category in `sym_index` and return
`none` (with a warning logged) when it is absent; otherwise aggregate each
rank's annotation events by decoded name via `_aggr_gpu_kernel_time` and
concatenate, sorted by `(rank, name)`.  `symNames` is the symbol table's
id-to-name list used by `add_symbols_to_trace_df`. -/
def getGpuUserAnnoBreakdown (tbl : List (String × Int)) (symNames : List String)
    (useGpu : Bool) (traces : List (Int × List TraceRow)) (ratio : ℚ) (nk : Nat)
    (allowNames : Option (List String)) : Option (List (Int × AggRow)) :=
  match symIdGet tbl (if useGpu then "gpu_user_annotation" else "user_annotation") with
  | none => none
  | some idx =>
      some (List.insertionSort rankNameLe
        (traces.foldr
          (fun rt acc =>
            ((aggrGpuKernelTime
                ((rt.2.filter (fun r => decide (r.cat = idx))).map
                  (fun r => (symNames.getD r.name.toNat "", r.dur)))
                nk ratio allowNames).map
              (fun row => (rt.1, row))) ++ acc)
          []))

/-- C8: when the requested annotation category is absent from the trace's
symbol table, both annotation analyses return the explicit "unavailable"
result `None` - not an empty table, and without raising - after logging a
warning (logging is a side effect outside this embedding).  A trace with the
category present but no overlaps would instead return `some` of an empty or
`-1`-annotated table, so the two situations are distinguishable. -/
theorem missing_annotation_category_returns_none (tbl : List (String × Int))
    (symNames : List String) (traces : List (Int × List TraceRow))
    (rows : List TraceRow) (ratio : ℚ) (nk : Nat) (allowNames : Option (List String))
    (h : symIdGet tbl "gpu_user_annotation" = none) :
    getGpuUserAnnoBreakdown tbl symNames true traces ratio nk allowNames = none
      ∧ getGpuKernelsWithUserAnnos tbl rows = none := by
  constructor
  · rw [getGpuUserAnnoBreakdown]
    rw [if_pos rfl, h]
  · rw [getGpuKernelsWithUserAnnos, gpuUserAnnoIntervalDataframe, h]

/-- Witness for C8: a symbol table carrying only `"kernel"` has no
`"gpu_user_annotation"` entry, so both analyses return `none` on any input. -/
theorem missing_annotation_category_returns_none_witness :
    symIdGet [("kernel", 0)] "gpu_user_annotation" = none
      ∧ (getGpuUserAnnoBreakdown [("kernel", 0)] ["kernel"] true
            [(0, [⟨0, 1, 2, 0, 5, 7, 0⟩])] (mkRat 4 5) 10 none = none
          ∧ getGpuKernelsWithUserAnnos [("kernel", 0)] [⟨0, 1, 2, 0, 5, 7, 0⟩] = none) :=
  ⟨by decide, missing_annotation_category_returns_none [("kernel", 0)] ["kernel"]
    [(0, [⟨0, 1, 2, 0, 5, 7, 0⟩])] [⟨0, 1, 2, 0, 5, 7, 0⟩] (mkRat 4 5) 10 none (by decide)⟩

theorem foldl_map_commute {α β : Type} (f : α → β → β) :
    ∀ (l : List α) (ks : List β),
      l.foldl (fun ks a => ks.map (f a)) ks = ks.map (fun k => l.foldl (fun k a => f a k) k) := by
  intro l
  induction l with
  | nil => intro ks; simp
  | cons a l ih =>
      intro ks
      rw [List.foldl_cons, ih, List.map_map]
      simp only [List.foldl_cons, Function.comp]
      rfl

/-- The `user_annotation` write of `annoStep`, on the immutable key fields of
a kernel. -/
def annoWrite (pid tid p q ts en : Int) (a : AnnoRow) (u : Int) : Int :=
  if p = pid ∧ q = tid ∧ ivOverlaps ts en a.ts a.en = true then a.name else u

theorem annoStep_eq (pid tid : Int) (a : AnnoRow) (k : KernRow) :
    annoStep pid tid a k
      = ⟨k.pid, k.tid, k.ts, k.en, annoWrite pid tid k.pid k.tid k.ts k.en a k.userAnno⟩ := by
  rw [annoStep, annoWrite]
  by_cases h : k.pid = pid ∧ k.tid = tid ∧ ivOverlaps k.ts k.en a.ts a.en = true
  · rw [if_pos h, if_pos h]
  · rw [if_neg h, if_neg h]

theorem fold_annoStep (pid tid : Int) :
    ∀ (as : List AnnoRow) (k : KernRow),
      as.foldl (fun k a => annoStep pid tid a k) k
        = ⟨k.pid, k.tid, k.ts, k.en,
            as.foldl (fun u a => annoWrite pid tid k.pid k.tid k.ts k.en a u) k.userAnno⟩ := by
  intro as
  induction as with
  | nil => intro k; rfl
  | cons a as ih =>
      intro k
      rw [List.foldl_cons, annoStep_eq, ih, List.foldl_cons]

theorem annoWrite_fold_id {pid tid p q : Int} (ts en : Int)
    (hmis : ¬(p = pid ∧ q = tid)) :
    ∀ (as : List AnnoRow) (u : Int),
      as.foldl (fun u a => annoWrite pid tid p q ts en a u) u = u := by
  intro as
  induction as with
  | nil => intro u; rfl
  | cons a as ih =>
      intro u
      rw [List.foldl_cons, annoWrite, if_neg (fun hc => hmis ⟨hc.1, hc.2.1⟩)]
      exact ih u

theorem annoWrite_fold_char {pid tid p q : Int} (ts en : Int)
    (hp : p = pid) (hq : q = tid) :
    ∀ (as : List AnnoRow) (u : Int),
      as.foldl (fun u a => annoWrite pid tid p q ts en a u) u
        = (((as.filter (fun a => ivOverlaps ts en a.ts a.en)).map
            (fun a => a.name)).getLast?).getD u := by
  intro as
  induction as with
  | nil => intro u; rfl
  | cons a as ih =>
      intro u
      rw [List.foldl_cons, annoWrite, List.filter_cons]
      by_cases hov : ivOverlaps ts en a.ts a.en = true
      · rw [if_pos ⟨hp, hq, hov⟩, if_pos hov, List.map_cons, List.getLast?_cons]
        rw [ih a.name]
        cases hgl : ((as.filter (fun a2 => ivOverlaps ts en a2.ts a2.en)).map
            (fun a2 => a2.name)).getLast? with
        | none => simp [hgl]
        | some n => simp [hgl]
      · rw [if_neg (fun hc => hov hc.2.2), if_neg hov]
        exact ih u

/-- The per-partition step of the association, acting on one kernel. -/
def partStep (annos : List AnnoRow) (k : KernRow) (p : Int × Int) : KernRow :=
  (annos.filter (fun a => decide (a.pid = p.1) && decide (a.tid = p.2))).foldl
    (fun k a => annoStep p.1 p.2 a k) k

theorem partStep_other (annos : List AnnoRow) (k : KernRow) (p : Int × Int)
    (hne : p ≠ (k.pid, k.tid)) : partStep annos k p = k := by
  rw [partStep, fold_annoStep]
  rw [annoWrite_fold_id _ _ (fun hc => hne (by rw [Prod.ext_iff]; exact ⟨hc.1.symm, hc.2.symm⟩))]

theorem partStep_fields (annos : List AnnoRow) (k : KernRow) (p : Int × Int) :
    (partStep annos k p).pid = k.pid ∧ (partStep annos k p).tid = k.tid := by
  rw [partStep, fold_annoStep]
  exact ⟨rfl, rfl⟩

theorem outer_fold_not_mem (annos : List AnnoRow) :
    ∀ (ps : List (Int × Int)) (k : KernRow), (k.pid, k.tid) ∉ ps →
      ps.foldl (partStep annos) k = k := by
  intro ps
  induction ps with
  | nil => intro k _; rfl
  | cons p ps ih =>
      intro k hk
      rw [List.foldl_cons, partStep_other annos k p (fun hc => hk (by rw [hc]; simp))]
      exact ih k (fun hc => hk (by simp [hc]))

theorem outer_fold_mem (annos : List AnnoRow) :
    ∀ (ps : List (Int × Int)) (k : KernRow), ps.Nodup → (k.pid, k.tid) ∈ ps →
      ps.foldl (partStep annos) k = partStep annos k (k.pid, k.tid) := by
  intro ps
  induction ps with
  | nil => intro k _ hk; simp at hk
  | cons p ps ih =>
      intro k hnd hk
      rw [List.foldl_cons]
      by_cases hp : p = (k.pid, k.tid)
      · obtain ⟨hf1, hf2⟩ := partStep_fields annos k p
        have hnotin : (k.pid, k.tid) ∉ ps := by
          have h1 := (List.nodup_cons.mp hnd).1
          rw [hp] at h1
          exact h1
        have h2 : ((partStep annos k p).pid, (partStep annos k p).tid) ∉ ps := by
          rw [hf1, hf2]
          exact hnotin
        rw [outer_fold_not_mem annos ps _ h2, hp]
      · rw [partStep_other annos k p (fun hc => hp hc)]
        exact ih k (List.nodup_cons.mp hnd).2
          (by rcases List.mem_cons.mp hk with hc | hc
              · exact absurd hc.symm hp
              · exact hc)

theorem mem_of_getLast_eq {α : Type} : ∀ {l : List α} {a : α}, l.getLast? = some a → a ∈ l := by
  intro l
  induction l with
  | nil => intro a h; simp at h
  | cons x l ih =>
      intro a h
      rw [List.getLast?_cons] at h
      cases hgl : l.getLast? with
      | none =>
          rw [hgl] at h
          simp only [Option.getD_none, Option.some.injEq] at h
          simp [← h]
      | some b =>
          rw [hgl] at h
          simp only [Option.getD_some, Option.some.injEq] at h
          subst h
          exact List.mem_cons_of_mem x (ih hgl)

theorem lastMatch (m : AnnoRow → Bool) (astar : AnnoRow) :
    ∀ (s : List AnnoRow), List.Pairwise durDesc s → astar ∈ s → m astar = true →
      (∀ b ∈ s, m b = true → b.name = astar.name ∨ astar.dur < b.dur) →
      ((s.filter m).map (fun a => a.name)).getLast? = some astar.name := by
  intro s
  induction s with
  | nil => intro _ hmem _ _; simp at hmem
  | cons h t ih =>
      intro hsorted hmem hma hyp
      have hdesc : ∀ b ∈ t, b.dur ≤ h.dur := fun b hb =>
        (List.pairwise_cons.mp hsorted).1 b hb
      have htsorted : List.Pairwise durDesc t := (List.pairwise_cons.mp hsorted).2
      by_cases hmh : m h = true
      · rw [List.filter_cons, if_pos hmh, List.map_cons, List.getLast?_cons]
        by_cases hah : astar = h
        · subst hah
          have hall : ∀ b ∈ t, m b = true → b.name = astar.name := by
            intro b hb hmb
            rcases hyp b (List.mem_cons_of_mem astar hb) hmb with he | hd
            · exact he
            · exact absurd (hdesc b hb) (by omega)
          cases hgl : ((t.filter m).map (fun a => a.name)).getLast? with
          | none => rfl
          | some n =>
              have hn : n = astar.name := by
                have hmemn := mem_of_getLast_eq hgl
                obtain ⟨b, hb, rfl⟩ := List.mem_map.mp hmemn
                exact hall b (List.mem_of_mem_filter hb) (List.of_mem_filter hb)
              simp [hn]
        · have hat : astar ∈ t := by
            rcases List.mem_cons.mp hmem with hc | hc
            · exact absurd hc hah
            · exact hc
          have hres := ih htsorted hat hma
            (fun b hb hmb => hyp b (List.mem_cons_of_mem h hb) hmb)
          rw [hres]
          rfl
      · have hat : astar ∈ t := by
          rcases List.mem_cons.mp hmem with hc | hc
          · rw [hc] at hma; exact absurd hma hmh
          · exact hc
        rw [List.filter_cons, if_neg (by simp [hmh])]
        exact ih htsorted hat hma
          (fun b hb hmb => hyp b (List.mem_cons_of_mem h hb) hmb)

/-- C7: a GPU kernel overlapping several same-`(pid, tid)` user annotations
ends up attributed to the overlapping annotation of smallest duration: the
annotations are processed in duration-descending order and each later
(narrower) annotation overwrites the `user_annotation` assignment.
`hmin` states that `astar` is the strict duration-minimum among the
annotations of the kernel's `(pid, tid)` that overlap it (annotations tied
with it, if any, carry the same name). -/
theorem kernel_attributed_to_innermost_anno
    (ks : List KernRow) (annos : List AnnoRow) (i : Nat) (k : KernRow)
    (hk : ks[i]? = some k) (astar : AnnoRow) (hstar : astar ∈ annos)
    (hpid : astar.pid = k.pid) (htid : astar.tid = k.tid)
    (hov : ivOverlaps k.ts k.en astar.ts astar.en = true)
    (hmin : ∀ b ∈ annos, b.pid = k.pid → b.tid = k.tid →
      ivOverlaps k.ts k.en b.ts b.en = true → b.name = astar.name ∨ astar.dur < b.dur) :
    (associateGpuKernelsWithUserAnnos ks (List.insertionSort durDesc annos))[i]?
      = some { k with userAnno := astar.name } := by
  have hperm : (List.insertionSort durDesc annos).Perm annos :=
    List.perm_insertionSort durDesc annos
  have hsorted : List.Pairwise durDesc (List.insertionSort durDesc annos) :=
    List.sorted_insertionSort durDesc annos
  have hassoc : associateGpuKernelsWithUserAnnos ks (List.insertionSort durDesc annos)
      = ks.map (fun k => (pidTids (List.insertionSort durDesc annos)).foldl
          (partStep (List.insertionSort durDesc annos)) k) := by
    rw [associateGpuKernelsWithUserAnnos]
    have hfn : (fun (ks : List KernRow) (p : Int × Int) =>
        ((List.insertionSort durDesc annos).filter
            (fun a => decide (a.pid = p.1) && decide (a.tid = p.2))).foldl
          (fun ks a => ks.map (annoStep p.1 p.2 a)) ks)
        = fun ks p => ks.map (fun k => partStep (List.insertionSort durDesc annos) k p) := by
      funext ks p
      exact foldl_map_commute (fun a k => annoStep p.1 p.2 a k) _ ks
    rw [hfn]
    exact foldl_map_commute (fun p k => partStep (List.insertionSort durDesc annos) k p) _ ks
  rw [hassoc, List.getElem?_map, hk, Option.map_some']
  have hmem : (k.pid, k.tid) ∈ pidTids (List.insertionSort durDesc annos) := by
    rw [pidTids, List.mem_dedup]
    exact List.mem_map.mpr ⟨astar, hperm.mem_iff.mpr hstar, by rw [hpid, htid]⟩
  rw [outer_fold_mem (List.insertionSort durDesc annos)
    (pidTids (List.insertionSort durDesc annos)) k
    (by rw [pidTids]; exact List.nodup_dedup _) hmem]
  rw [partStep, fold_annoStep]
  rw [annoWrite_fold_char k.ts k.en rfl rfl]
  rw [List.filter_filter]
  have hlast := lastMatch (fun a => ivOverlaps k.ts k.en a.ts a.en
      && (decide (a.pid = (k.pid, k.tid).1) && decide (a.tid = (k.pid, k.tid).2)))
    astar (List.insertionSort durDesc annos) hsorted
    (hperm.mem_iff.mpr hstar)
    (by simp only [Bool.and_eq_true, decide_eq_true_eq]
        exact ⟨hov, hpid, htid⟩)
    (by intro b hb hmb
        simp only [Bool.and_eq_true, decide_eq_true_eq] at hmb
        exact hmin b (hperm.mem_iff.mp hb) hmb.2.1 hmb.2.2 hmb.1)
  rw [hlast]
  rfl

/-- Witness for C7: annotation A `[0, 1000)` and nested annotation B
`[100, 200)` in the same `(pid, tid) = (1, 2)`; kernel K `[120, 150)`
overlaps both and is attributed to B (name 2), the narrower one, processed
last. -/
theorem kernel_attributed_to_innermost_anno_witness :
    ([(⟨1, 2, 120, 150, -1⟩ : KernRow)][0]? = some (⟨1, 2, 120, 150, -1⟩ : KernRow))
      ∧ ((⟨1, 2, 100, 200, 100, 2⟩ : AnnoRow)
          ∈ [(⟨1, 2, 0, 1000, 1000, 1⟩ : AnnoRow), ⟨1, 2, 100, 200, 100, 2⟩])
      ∧ (associateGpuKernelsWithUserAnnos [(⟨1, 2, 120, 150, -1⟩ : KernRow)]
            (List.insertionSort durDesc
              [(⟨1, 2, 0, 1000, 1000, 1⟩ : AnnoRow), ⟨1, 2, 100, 200, 100, 2⟩]))[0]?
          = some (⟨1, 2, 120, 150, 2⟩ : KernRow) :=
  ⟨by decide, by decide,
    kernel_attributed_to_innermost_anno [(⟨1, 2, 120, 150, -1⟩ : KernRow)]
      [(⟨1, 2, 0, 1000, 1000, 1⟩ : AnnoRow), ⟨1, 2, 100, 200, 100, 2⟩] 0
      (⟨1, 2, 120, 150, -1⟩ : KernRow) (by decide)
      (⟨1, 2, 100, 200, 100, 2⟩ : AnnoRow) (by decide) (by decide) (by decide) (by decide)
      (by decide)⟩

theorem quantile_floor_eq (n : Nat) (q : ℚ) :
    ⌊((n : ℚ) - 1) * q⌋ = ((n : Int) - 1) * q.num / (q.den : Int) := by
  have hh : ((n : ℚ) - 1) * q = ((((n : Int) - 1) * q.num : Int) : ℚ) / ((q.den : ℕ) : ℚ) := by
    have hden : ((q.den : ℚ)) ≠ 0 := by positivity
    have hq : (q.num : ℚ) / (q.den : ℚ) = q := Rat.num_div_den q
    rw [div_eq_iff hden] at hq
    rw [eq_div_iff hden]
    push_cast
    rw [hq]
    ring
  rw [hh]
  exact Rat.floor_intCast_div_natCast _ _

/-- The integer quantile test agrees with the rational comparison against
`seriesQuantile` (faithfulness of `exceedsQuantile`). -/
theorem exceedsQuantile_eq_decide (vals : List Int) (q : ℚ) (c : Int) :
    exceedsQuantile vals q c = decide (seriesQuantile vals q < (c : ℚ)) := by
  rw [exceedsQuantile, seriesQuantile]
  have hfloor := quantile_floor_eq (List.insertionSort (fun a b : Int => a ≤ b) vals).length q
  rw [hfloor]
  rw [decide_eq_decide]
  set s := List.insertionSort (fun a b : Int => a ≤ b) vals with hs
  set i : Int := ((s.length : Int) - 1) * q.num / (q.den : Int) with hi
  set lo : Int := s.getD i.toNat 0 with hlo
  set hi2 : Int := s.getD (i.toNat + 1) lo with hhi2
  have hden : (0 : ℚ) < (q.den : ℚ) := by exact_mod_cast q.den_pos
  have hdh : (q.den : ℚ) * (((s.length : ℚ) - 1) * q)
      = ((s.length : ℚ) - 1) * (q.num : ℚ) := by
    have hq : (q.num : ℚ) / (q.den : ℚ) = q := Rat.num_div_den q
    rw [div_eq_iff hden.ne'] at hq
    rw [hq]
    ring
  have hkey : ((lo : ℚ) + (((s.length : ℚ) - 1) * q - (i : ℚ)) * ((hi2 : ℚ) - (lo : ℚ))
        - (c : ℚ)) * (q.den : ℚ)
      = (((s.length : ℚ) - 1) * (q.num : ℚ) - (i : ℚ) * (q.den : ℚ))
          * ((hi2 : ℚ) - (lo : ℚ))
        - (q.den : ℚ) * ((c : ℚ) - (lo : ℚ)) := by
    linear_combination ((hi2 : ℚ) - (lo : ℚ)) * hdh
  constructor
  · intro h
    have hq : ((((s.length : Int) - 1) * q.num - i * (q.den : Int)) * (hi2 - lo) : ℚ)
        < (((q.den : Int) * (c - lo)) : ℚ) := by exact_mod_cast h
    push_cast at hq
    have h3 : ((lo : ℚ) + (((s.length : ℚ) - 1) * q - (i : ℚ)) * ((hi2 : ℚ) - (lo : ℚ))
        - (c : ℚ)) * (q.den : ℚ) < 0 := by
      rw [hkey]
      linarith
    have h4 : (lo : ℚ) + (((s.length : ℚ) - 1) * q - (i : ℚ)) * ((hi2 : ℚ) - (lo : ℚ))
        - (c : ℚ) < 0 := by
      by_contra hcon
      push_neg at hcon
      nlinarith [hden, h3, hcon]
    linarith
  · intro h
    have h4 : (lo : ℚ) + (((s.length : ℚ) - 1) * q - (i : ℚ)) * ((hi2 : ℚ) - (lo : ℚ))
        - (c : ℚ) < 0 := by linarith
    have h3 := mul_neg_of_neg_of_pos h4 hden
    rw [hkey] at h3
    have hq : ((((s.length : Int) - 1) * q.num - i * (q.den : Int)) * (hi2 - lo) : ℚ)
        < (((q.den : Int) * (c - lo)) : ℚ) := by
      push_cast
      linarith
    exact_mod_cast hq
